import Mathlib

/-!
Binary reader / writer (`Binary.hpp`).

A shallow embedding of the class `Binary` of `Binary.hpp`: a growable byte
vector with a read cursor and a write cursor, fixed-width integer writes and
reads in either byte order, and length-prefixed strings.

Conventions of the embedding.

* An `unsigned char` is a `Fin 256`; the vector `buffer` is a `List Byte`.
* `readOffset` and `writeOffset` are `unsigned long long`: natural numbers with
  every addition reduced modulo `2 ^ 64`, as the machine does.
* An integer argument or result is an `Int`, its mathematical value.  The
  object representation of an integer (what `reinterpret_cast<char*>` sees) is
  the two's complement little-endian one, `sizeof(short) = 2`, `sizeof(int) = 4`,
  `sizeof(long long) = 8`, plain `char` signed and `>>` on a signed operand an
  arithmetic shift: the target the header is written for (it uses the
  `std::exception(const char*)` constructor of that toolchain).
* A member function that reads returns an `Outcome`: a normal return with the
  new state, a `throw` that was executed, a call of `std::terminate` (an
  exception leaving a `noexcept` function), or undefined behaviour (an access
  outside the vector).
-/

/-- An `unsigned char`. -/
abbrev Byte := Fin 256

/-- The data members of `class Binary`. -/
structure Binary where
  buffer : List Byte
  readOffset : Nat
  writeOffset : Nat
deriving DecidableEq, Repr

/-- What a call of a reading member function can do. -/
inductive Outcome (α : Type) where
  | ok (val : α) (st : Binary)
  | thrown (st : Binary)
  | terminated
  | undefined
deriving DecidableEq, Repr

namespace Outcome

/-- Sequencing: run `f` on the result of a normal return. -/
def bind {α β : Type} : Outcome α → (α → Binary → Outcome β) → Outcome β
  | ok v st, f => f v st
  | thrown st, _ => thrown st
  | terminated, _ => terminated
  | undefined, _ => undefined

/-- Convert the returned value. -/
def map {α β : Type} (f : α → β) : Outcome α → Outcome β
  | ok v st => ok (f v) st
  | thrown st => thrown st
  | terminated => terminated
  | undefined => undefined

/-- An exception that reaches the boundary of a `noexcept` function calls
`std::terminate`; nothing is propagated to the caller. -/
def noexcept {α : Type} : Outcome α → Outcome α
  | thrown _ => terminated
  | o => o

end Outcome

/-- The integer types the template `writeBytes<T>` / `readBytes<T>` is
instantiated with by the `Int8` .. `UInt64` member functions. -/
inductive IntTy where
  | char | uchar | short | ushort | int | uint | llong | ullong
deriving DecidableEq, Repr

namespace IntTy

/-- The value of `sizeof(T)`. -/
def size : IntTy → Nat
  | char => 1 | uchar => 1
  | short => 2 | ushort => 2
  | int => 4 | uint => 4
  | llong => 8 | ullong => 8

/-- Whether `T` is a signed type. -/
def signed : IntTy → Bool
  | char => true | short => true | int => true | llong => true
  | uchar => false | ushort => false | uint => false | ullong => false

/-- The values a variable of type `T` can hold. -/
def InRange (t : IntTy) (v : Int) : Prop :=
  if t.signed then -(2 ^ (8 * t.size - 1) : Int) ≤ v ∧ v < 2 ^ (8 * t.size - 1)
  else 0 ≤ v ∧ v < 2 ^ (8 * t.size)

instance (t : IntTy) (v : Int) : Decidable (t.InRange v) := by
  unfold InRange; split <;> exact inferInstance

end IntTy

namespace Binary

/-- The conversion of an integer to `unsigned char` (reduction modulo 256), as
done by `buffer.push_back(expr)`. -/
def toByte (x : Int) : Byte := ⟨(x % 256).toNat, by omega⟩

/-- The unsigned value `2 ^ 64` at which `unsigned long long` wraps. -/
def wrap64 : Nat := 2 ^ 64

/-- The largest size a `std::vector<unsigned char>` can have
(`max_size()`, the largest `ptrdiff_t`). -/
def maxSize : Nat := 2 ^ 63 - 1

/-- The constraints the types of the data members put on a state. -/
def Valid (b : Binary) : Prop :=
  b.buffer.length ≤ maxSize ∧ b.readOffset < wrap64 ∧ b.writeOffset < wrap64

instance (b : Binary) : Decidable b.Valid := by
  unfold Valid; exact inferInstance

/-- The state `Binary()` constructs. -/
def empty : Binary := ⟨[], 0, 0⟩

/-- The constructor `Binary(const std::vector<unsigned char>&)`. -/
def ofBuffer (buf : List Byte) : Binary := ⟨buf, 0, 0⟩

/-- The member `setBuffer`. -/
def setBuffer (buf : List Byte) (b : Binary) : Binary := { b with buffer := buf }

/-- The member `getBuffer`. -/
def getBuffer (b : Binary) : List Byte := b.buffer

/-- The member `clear`. -/
def clear (_b : Binary) : Binary := ⟨[], 0, 0⟩

/-- The member `setReadOffset`; the parameter is an `unsigned long long`. -/
def setReadOffset (newOffset : Nat) (b : Binary) : Binary :=
  { b with readOffset := newOffset % wrap64 }

/-- The member `getReadOffset`. -/
def getReadOffset (b : Binary) : Nat := b.readOffset

/-! ## Writing -/

/-- The object representation of a `size`-byte integer of value `val`:
`array[k]` is byte `k`, least significant first. -/
def objectRepr (size : Nat) (val : Int) : List Byte :=
  (List.range size).map fun k => toByte (val / 256 ^ k)

/-- The little-endian loop of `writeBytes<T>`:
`for (i = 0, mask = 0; i < size; ++i, mask += 8) buffer.push_back(val >> mask)`.
The state of the loop is the vector and `mask`. -/
def pushLE (val : Int) (size : Nat) (buffer : List Byte) : List Byte :=
  ((List.range size).foldl
    (fun (st : List Byte × Nat) _i => (st.1 ++ [toByte (val >>> st.2)], st.2 + 8))
    (buffer, 0)).1

/-- The big-endian loop of `writeBytes<T>`:
`for (i = 0; i < size; ++i) buffer.push_back(array[size - i - 1])`. -/
def pushBE (array : List Byte) (size : Nat) (buffer : List Byte) : List Byte :=
  (List.range size).foldl
    (fun buf i => buf ++ [array.getD (size - i - 1) 0]) buffer

/-- The body of the template `writeBytes<T>(val, LE)` for `sizeof(T) = size`. -/
def writeBytesSized (size : Nat) (val : Int) (LE : Bool) (b : Binary) : Binary :=
  { b with
    buffer := if LE then pushLE val size b.buffer
              else pushBE (objectRepr size val) size b.buffer
    writeOffset := (b.writeOffset + size) % wrap64 }

/-- The template `writeBytes<T>(val, LE)` at an integer type. -/
def writeBytes (t : IntTy) (val : Int) (LE : Bool) (b : Binary) : Binary :=
  writeBytesSized t.size val LE b

def writeInt8 (val : Int) (b : Binary) : Binary := writeBytes .char val true b
def writeUInt8 (val : Int) (b : Binary) : Binary := writeBytes .uchar val true b
def writeInt16_LE (val : Int) (b : Binary) : Binary := writeBytes .short val true b
def writeInt16_BE (val : Int) (b : Binary) : Binary := writeBytes .short val false b
def writeUInt16_LE (val : Int) (b : Binary) : Binary := writeBytes .ushort val true b
def writeUInt16_BE (val : Int) (b : Binary) : Binary := writeBytes .ushort val false b
def writeInt32_LE (val : Int) (b : Binary) : Binary := writeBytes .int val true b
def writeInt32_BE (val : Int) (b : Binary) : Binary := writeBytes .int val false b
def writeUInt32_LE (val : Int) (b : Binary) : Binary := writeBytes .uint val true b
def writeUInt32_BE (val : Int) (b : Binary) : Binary := writeBytes .uint val false b
def writeInt64_LE (val : Int) (b : Binary) : Binary := writeBytes .llong val true b
def writeInt64_BE (val : Int) (b : Binary) : Binary := writeBytes .llong val false b
def writeUInt64_LE (val : Int) (b : Binary) : Binary := writeBytes .ullong val true b
def writeUInt64_BE (val : Int) (b : Binary) : Binary := writeBytes .ullong val false b

/-- The value of a byte converted to plain (signed) `char`. -/
def toChar (s : Byte) : Int := if s.val < 128 then (s.val : Int) else (s.val : Int) - 256

/-- The member `writeStr`: `writeUInt8(str.size())`, then `writeInt8(s)` for
every `unsigned char s` of the string. -/
def writeStr (str : List Byte) (b : Binary) : Binary :=
  str.foldl (fun st s => writeInt8 (toChar s) st) (writeUInt8 (str.length : Int) b)

/-! ## Reading -/

/-- The copy loop of `readBytes<T>`, little-endian branch:
`for (i = 0; i < size; ++i) dst[i] = src[i]`, with `src = &buffer[readOffset]`. -/
def copyLE (buffer : List Byte) (readOffset size : Nat) (dst : List Byte) : List Byte :=
  (List.range size).foldl
    (fun d i => d.set i (buffer.getD (readOffset + i) 0)) dst

/-- The copy loop of `readBytes<T>`, big-endian branch:
`for (i = 0; i < size; ++i) dst[i] = src[size - i - 1]`. -/
def copyBE (buffer : List Byte) (readOffset size : Nat) (dst : List Byte) : List Byte :=
  (List.range size).foldl
    (fun d i => d.set i (buffer.getD (readOffset + (size - i - 1)) 0)) dst

/-- The body of the template `readBytes<T>(LE)` for `sizeof(T) = size`, up to
the object representation of `result`.  `result` starts as zero; the guard
`readOffset + size > buffer.size()` is evaluated in `unsigned long long`; past
the guard the bytes `buffer[readOffset] .. buffer[readOffset + size - 1]` are
accessed, which is undefined unless they all exist. -/
def readObject (size : Nat) (LE : Bool) (b : Binary) : Outcome (List Byte) :=
  let result := List.replicate size (0 : Byte)
  if (b.readOffset + size) % wrap64 > b.buffer.length then
    .ok result b
  else if b.readOffset + size ≤ b.buffer.length then
    .ok (if LE then copyLE b.buffer b.readOffset size result
         else copyBE b.buffer b.readOffset size result)
        { b with readOffset := (b.readOffset + size) % wrap64 }
  else
    .undefined

/-- The unsigned value of an object representation (least significant byte
first). -/
def unsignedValue : List Byte → Nat
  | [] => 0
  | x :: xs => x.val + 256 * unsignedValue xs

end Binary

namespace IntTy

/-- The value of a variable of type `T` whose object representation is
`bytes`: two's complement for the signed types. -/
def ofObject (t : IntTy) (bytes : List Byte) : Int :=
  let u : Int := Binary.unsignedValue bytes
  if t.signed ∧ 2 ^ (8 * t.size - 1) ≤ u then u - 2 ^ (8 * t.size) else u

end IntTy

namespace Binary

/-- The template `readBytes<T>(LE)` at an integer type. -/
def readBytes (t : IntTy) (LE : Bool) (b : Binary) : Outcome Int :=
  (readObject t.size LE b).map t.ofObject

def readInt8 (b : Binary) : Outcome Int := readBytes .char true b
def readUInt8 (b : Binary) : Outcome Int := readBytes .uchar true b
def readInt16_LE (b : Binary) : Outcome Int := readBytes .short true b
def readInt16_BE (b : Binary) : Outcome Int := readBytes .short false b
def readUInt16_LE (b : Binary) : Outcome Int := readBytes .ushort true b
def readUInt16_BE (b : Binary) : Outcome Int := readBytes .ushort false b
def readInt32_LE (b : Binary) : Outcome Int := readBytes .int true b
def readInt32_BE (b : Binary) : Outcome Int := readBytes .int false b
def readUInt32_LE (b : Binary) : Outcome Int := readBytes .uint true b
def readUInt32_BE (b : Binary) : Outcome Int := readBytes .uint false b
def readInt64_LE (b : Binary) : Outcome Int := readBytes .llong true b
def readInt64_BE (b : Binary) : Outcome Int := readBytes .llong false b
def readUInt64_LE (b : Binary) : Outcome Int := readBytes .ullong true b
def readUInt64_BE (b : Binary) : Outcome Int := readBytes .ullong false b

/-- The statements of `readStr(len, lengthBased)` after the optional
`readUInt8()`.  The guard `readOffset + len > buffer.size()` is evaluated in
`unsigned long long`; when it passes, the string is built from the iterator
range `[begin + readOffset, begin + readOffset + len)`, which is undefined
unless the range lies inside the vector. -/
def readStrTail (len : Nat) (b : Binary) : Outcome (List Byte) :=
  if (b.readOffset + len) % wrap64 > b.buffer.length then
    .thrown b
  else if b.readOffset + len ≤ b.buffer.length then
    .ok ((b.buffer.drop b.readOffset).take len)
        { b with readOffset := (b.readOffset + len) % wrap64 }
  else
    .undefined

/-- The statements of `readStr(len, lengthBased)`: `if (lengthBased) readUInt8();`
and then the guarded copy. -/
def readStrBody (len : Nat) (lengthBased : Bool) (b : Binary) : Outcome (List Byte) :=
  if lengthBased then (readUInt8 b).bind fun _ b1 => readStrTail len b1
  else readStrTail len b

/-- The member `readStr(len, lengthBased)`, which is declared `noexcept`. -/
def readStr (len : Nat) (lengthBased : Bool) (b : Binary) : Outcome (List Byte) :=
  (readStrBody len lengthBased b).noexcept

/-- The member `readStr()`: `auto length = readUInt8(); return readStr(length, false);`,
declared `noexcept`. -/
def readStrPrefixed (b : Binary) : Outcome (List Byte) :=
  ((readUInt8 b).bind fun length b1 => readStr length.toNat false b1).noexcept

end Binary

/-- The fixed-width read members: the fourteen integer reads
(`readInt8` .. `readUInt64_BE`, a type and a byte order), `readBool`,
`readFloat_LE/_BE` and `readDouble_LE/_BE`. -/
inductive ReadOp where
  | int (t : IntTy) (LE : Bool)
  | bool
  | float (LE : Bool)
  | double (LE : Bool)
deriving DecidableEq, Repr

namespace ReadOp

/-- The width `sizeof(T)` of the instance of `readBytes<T>` the member calls. -/
def width : ReadOp → Nat
  | int t _ => t.size
  | bool => 1
  | float _ => 4
  | double _ => 8

/-- The effect of the member on the state, its result dropped: `readBool` is
`readBytes<bool>()`, `readFloat_LE` is `readBytes<float>()`, `readFloat_BE` is
`readBytes<float>(false)`, and likewise for `double`. -/
def run : ReadOp → Binary → Outcome Unit
  | int t LE, b => (Binary.readBytes t LE b).map fun _ => ()
  | bool, b => (Binary.readObject 1 true b).map fun _ => ()
  | float LE, b => (Binary.readObject 4 LE b).map fun _ => ()
  | double LE, b => (Binary.readObject 8 LE b).map fun _ => ()

end ReadOp

/-- A sequence of fixed-width reads, performed one after the other. -/
def runReads : List ReadOp → Binary → Outcome Unit
  | [], b => .ok () b
  | op :: ops, b => (op.run b).bind fun _ b1 => runReads ops b1

/-! ## Bool, floating point, raw bytes, hex dump -/

namespace Binary

/-- The member `writeBool`: `writeBytes<bool>(val)`; `sizeof(bool)` is 1 and
`val >> mask` promotes the bool to the integer 0 or 1. -/
def writeBool (val : Bool) (b : Binary) : Binary :=
  writeBytesSized 1 (if val then 1 else 0) true b

/-- The value of a `bool` object whose object representation is `bytes`: the
byte 0 is `false`, the byte 1 is `true`, and no other byte is the
representation of a value of type `bool`. -/
def boolOfObject (bytes : List Byte) : Option Bool :=
  if unsignedValue bytes = 0 then some false
  else if unsignedValue bytes = 1 then some true
  else none

/-- The member `readBool`: `readBytes<bool>()`, which copies one stored byte
into the `bool` result. -/
def readBool (b : Binary) : Outcome (Option Bool) :=
  (readObject 1 true b).map boolOfObject

/-- The member `writeFloat_LE`.  A `float` is given by its 32-bit pattern
`bits`; the union makes `u.inum` that pattern. -/
def writeFloat_LE (bits : Int) (b : Binary) : Binary := writeUInt32_LE bits b

/-- The member `writeFloat_BE`. -/
def writeFloat_BE (bits : Int) (b : Binary) : Binary := writeUInt32_BE bits b

/-- The member `writeDouble_LE`.  A `double` is given by its 64-bit pattern. -/
def writeDouble_LE (bits : Int) (b : Binary) : Binary := writeUInt64_LE bits b

/-- The member `writeDouble_BE`. -/
def writeDouble_BE (bits : Int) (b : Binary) : Binary := writeUInt64_BE bits b

/-- The bit pattern of a `float` or `double` whose object representation is
`bytes`. -/
def bitsOfObject (bytes : List Byte) : Int := (unsignedValue bytes : Int)

/-- The member `readFloat_LE`: `readBytes<float>()`; the result is given by
its bit pattern. -/
def readFloat_LE (b : Binary) : Outcome Int := (readObject 4 true b).map bitsOfObject

/-- The member `readFloat_BE`: `readBytes<float>(false)`. -/
def readFloat_BE (b : Binary) : Outcome Int := (readObject 4 false b).map bitsOfObject

/-- The member `readDouble_LE`: `readBytes<double>()`. -/
def readDouble_LE (b : Binary) : Outcome Int := (readObject 8 true b).map bitsOfObject

/-- The member `readDouble_BE`: `readBytes<double>(false)`. -/
def readDouble_BE (b : Binary) : Outcome Int := (readObject 8 false b).map bitsOfObject

/-- The overload `writeBytes(const unsigned char* data, size_t length)`:
`for (i = 0; i < length; i++) writeBytes<unsigned char>(data[i])`.  The array
behind `data` is the list `data`. -/
def writeBytesPtr (data : List Byte) (length : Nat) (b : Binary) : Binary :=
  (List.range length).foldl
    (fun st i => writeBytes .uchar ((data.getD i 0).val : Int) true st) b

/-- The overload `writeBytes(const std::vector<unsigned char>& data)`:
`writeBytes(data.data(), data.size())`. -/
def writeBytesVec (data : List Byte) (b : Binary) : Binary :=
  writeBytesPtr data data.length b

/-- What `byteStr << std::setw(2) << (unsigned short)x` inserts when the
stream is in `std::hex` mode with fill character `0`: the hexadecimal digits
of `x`, lower case, padded on the left to width 2. -/
def hexField (x : Byte) : List Char :=
  let digits := Nat.toDigits 16 x.val
  List.replicate (2 - digits.length) '0' ++ digits

/-- The member `byteStr(LE)`, a `const` member: the characters of the
returned string. -/
def byteStr (LE : Bool) (b : Binary) : List Char :=
  if LE then
    (List.range b.buffer.length).foldl
      (fun str i => str ++ hexField (b.buffer.getD i 0) ++ [' ']) []
  else
    let size := b.buffer.length
    (List.range size).foldl
      (fun str i => str ++ hexField (b.buffer.getD (size - i - 1) 0) ++ [' ']) []

end Binary

/-- The write members: a fixed-width integer write (type, byte order, value),
`writeBool`, `writeFloat_LE/_BE` and `writeDouble_LE/_BE` (byte order, bit
pattern), `writeStr`, and the two raw `writeBytes` overloads. -/
inductive WriteOp where
  | int (t : IntTy) (LE : Bool) (v : Int)
  | bool (v : Bool)
  | float (LE : Bool) (bits : Int)
  | double (LE : Bool) (bits : Int)
  | str (s : List Byte)
  | rawPtr (d : List Byte)
  | rawVec (d : List Byte)

/-- The effect of a write member on the state. -/
def WriteOp.run : WriteOp → Binary → Binary
  | .int t LE v, b => Binary.writeBytes t v LE b
  | .bool v, b => Binary.writeBool v b
  | .float LE bits, b => if LE then Binary.writeFloat_LE bits b else Binary.writeFloat_BE bits b
  | .double LE bits, b => if LE then Binary.writeDouble_LE bits b else Binary.writeDouble_BE bits b
  | .str s, b => Binary.writeStr s b
  | .rawPtr d, b => Binary.writeBytesPtr d d.length b
  | .rawVec d, b => Binary.writeBytesVec d b

/-- A typed value of a record: an integer of some type and byte order, a
bool, or a string. -/
inductive Value where
  | int (t : IntTy) (LE : Bool) (v : Int)
  | bool (v : Bool)
  | str (s : List Byte)
deriving DecidableEq, Repr

namespace Value

/-- The values the write members can take: an integer within the range of its
type, any bool, a string of at most 255 bytes. -/
def Representable : Value → Prop
  | int t _ v => t.InRange v
  | bool _ => True
  | str s => s.length ≤ 255

instance (v : Value) : Decidable v.Representable := by
  cases v <;> unfold Representable <;> exact inferInstance

/-- The write member for the value. -/
def write : Value → Binary → Binary
  | int t LE v, b => Binary.writeBytes t v LE b
  | bool v, b => Binary.writeBool v b
  | str s, b => Binary.writeStr s b

/-- The read member matching the write member of the value (same type and
byte order, `readBool`, `readStr()`); `none` is a `bool` result that holds no
value of its type. -/
def read : Value → Binary → Outcome (Option Value)
  | int t LE _, b => (Binary.readBytes t LE b).map fun v => some (int t LE v)
  | bool _, b => (Binary.readBool b).map fun o => o.map bool
  | str _, b => (Binary.readStrPrefixed b).map fun s => some (str s)

end Value

/-- Writing the values of a record in order. -/
def writeAll (vals : List Value) (b : Binary) : Binary :=
  vals.foldl (fun st v => v.write st) b

/-- Reading the values of a record back in order with the matching read
members. -/
def readAll : List Value → Binary → Outcome (List (Option Value))
  | [], b => .ok [] b
  | v :: vs, b => (v.read b).bind fun x b1 => (readAll vs b1).map fun xs => x :: xs

/-! ## Auxiliary facts about the loops -/

namespace Binary

theorem foldl_push_range {α : Type} (g : Nat → α) (n : Nat) (buf : List α) :
    (List.range n).foldl (fun acc i => acc ++ [g i]) buf = buf ++ (List.range n).map g := by
  induction n with
  | zero => simp
  | succ n ih => simp [List.range_succ, List.foldl_append, ih]

theorem foldl_mask_range (val : Int) (n : Nat) (buf : List Byte) :
    (List.range n).foldl
      (fun (st : List Byte × Nat) _i => (st.1 ++ [toByte (val >>> st.2)], st.2 + 8)) (buf, 0)
    = (buf ++ (List.range n).map (fun (i : Nat) => toByte (val >>> (8 * i))), 8 * n) := by
  induction n with
  | zero => simp
  | succ n ih => simp [List.range_succ, List.foldl_append, ih, Nat.mul_succ]

theorem foldl_set_range {α : Type} (g : Nat → α) (n : Nat) (d : List α) (h : n ≤ d.length) :
    (List.range n).foldl (fun acc i => acc.set i (g i)) d
      = (List.range n).map g ++ d.drop n := by
  induction n with
  | zero => simp
  | succ n ih =>
    have hn : n < d.length := h
    rw [List.range_succ, List.foldl_append, ih (Nat.le_of_lt hn)]
    simp only [List.foldl_cons, List.foldl_nil, List.map_append, List.map_cons, List.map_nil]
    rw [List.set_append_right _ _ (by simp)]
    simp only [List.length_map, List.length_range, Nat.sub_self, List.append_assoc]
    congr 1
    rw [List.drop_eq_getElem_cons hn]
    rfl

theorem shiftRight_eq_div (val : Int) (i : Nat) : val >>> (8 * i) = val / 256 ^ i := by
  rw [Int.shiftRight_eq_div_pow, pow_mul]
  norm_num

theorem pushLE_eq (val : Int) (size : Nat) (buf : List Byte) :
    pushLE val size buf = buf ++ objectRepr size val := by
  simp [pushLE, foldl_mask_range, objectRepr, shiftRight_eq_div]

theorem length_objectRepr (size : Nat) (val : Int) : (objectRepr size val).length = size := by
  simp [objectRepr]

theorem map_range_getD_rev (l : List Byte) :
    (List.range l.length).map (fun i => l.getD (l.length - i - 1) 0) = l.reverse := by
  apply List.ext_getElem
  · simp
  · intro i h1 h2
    simp only [List.length_map, List.length_range] at h1
    simp only [List.getElem_map, List.getElem_range, List.getElem_reverse]
    rw [List.getD_eq_getElem _ _ (by omega)]
    congr 1
    omega

theorem map_range_getD_slice (buffer : List Byte) (ro size : Nat)
    (h : ro + size ≤ buffer.length) :
    (List.range size).map (fun i => buffer.getD (ro + i) 0) = (buffer.drop ro).take size := by
  apply List.ext_getElem
  · simp; omega
  · intro i h1 h2
    simp only [List.length_map, List.length_range] at h1
    simp only [List.getElem_map, List.getElem_range, List.getElem_take, List.getElem_drop]
    rw [List.getD_eq_getElem _ _ (by omega)]

theorem pushBE_eq (val : Int) (size : Nat) (buf : List Byte) :
    pushBE (objectRepr size val) size buf = buf ++ (objectRepr size val).reverse := by
  unfold pushBE
  rw [foldl_push_range]
  have h := map_range_getD_rev (objectRepr size val)
  rw [length_objectRepr] at h
  rw [h]

theorem copyLE_eq (buffer : List Byte) (ro size : Nat) (h : ro + size ≤ buffer.length) :
    copyLE buffer ro size (List.replicate size 0) = (buffer.drop ro).take size := by
  unfold copyLE
  rw [foldl_set_range _ _ _ (by simp), map_range_getD_slice _ _ _ h]
  simp

theorem copyBE_eq (buffer : List Byte) (ro size : Nat) (h : ro + size ≤ buffer.length) :
    copyBE buffer ro size (List.replicate size 0) = ((buffer.drop ro).take size).reverse := by
  unfold copyBE
  rw [foldl_set_range _ _ _ (by simp)]
  have hl : ((buffer.drop ro).take size).length = size := by simp; omega
  have h2 := map_range_getD_rev ((buffer.drop ro).take size)
  rw [hl] at h2
  rw [← h2]
  simp only [List.drop_replicate, Nat.sub_self, List.replicate_zero, List.append_nil]
  apply List.map_congr_left
  intro i hi
  simp only [List.mem_range] at hi
  rw [List.getD_eq_getElem _ _ (by omega), List.getD_eq_getElem _ _ (by rw [hl]; omega)]
  simp only [List.getElem_take, List.getElem_drop]

/-- The two branches of `readObject` past the guard, as a slice of the vector. -/
theorem readObject_ok (size : Nat) (LE : Bool) (b : Binary)
    (hlen : b.buffer.length ≤ maxSize) (h : b.readOffset + size ≤ b.buffer.length) :
    readObject size LE b =
      .ok (if LE then (b.buffer.drop b.readOffset).take size
           else ((b.buffer.drop b.readOffset).take size).reverse)
          { b with readOffset := b.readOffset + size } := by
  have hw : (b.readOffset + size) % wrap64 = b.readOffset + size := by
    apply Nat.mod_eq_of_lt
    simp only [maxSize, wrap64] at *
    omega
  unfold readObject
  simp only [hw]
  rw [if_neg (by omega), if_pos h]
  cases LE
  · simp [copyBE_eq _ _ _ h]
  · simp [copyLE_eq _ _ _ h]

/-! ## Auxiliary facts about object representations -/

theorem ediv_emod_256_mul (v m : Int) (hm : 0 < m) :
    v / (256 * m) = v / 256 / m ∧ v % (256 * m) = v % 256 + 256 * (v / 256 % m) := by
  have h1 := Int.emod_add_ediv v 256
  have h2 := Int.emod_add_ediv (v / 256) m
  have h3 := Int.emod_nonneg v (show (256 : Int) ≠ 0 by norm_num)
  have h4 := Int.emod_lt_of_pos v (show (0 : Int) < 256 by norm_num)
  have h5 := Int.emod_nonneg (v / 256) (ne_of_gt hm)
  have h6 := Int.emod_lt_of_pos (v / 256) hm
  apply (Int.ediv_emod_unique (by positivity)).2
  refine ⟨?_, ?_, ?_⟩
  · have : 256 * m * (v / 256 / m) = 256 * (m * (v / 256 / m)) := by ring
    linarith
  · linarith
  · linarith

theorem objectRepr_succ (n : Nat) (v : Int) :
    objectRepr (n + 1) v = toByte v :: objectRepr n (v / 256) := by
  unfold objectRepr
  rw [List.range_succ_eq_map]
  simp only [List.map_cons, List.map_map, pow_zero, Int.ediv_one]
  congr 1
  apply List.map_congr_left
  intro k _
  simp only [Function.comp, Nat.succ_eq_add_one]
  rw [pow_succ, mul_comm, (ediv_emod_256_mul v _ (by positivity)).1]

theorem toByte_val (x : Int) : ((toByte x).val : Int) = x % 256 := by
  simp only [toByte]
  omega

theorem unsignedValue_lt (bytes : List Byte) : unsignedValue bytes < 256 ^ bytes.length := by
  induction bytes with
  | nil => simp [unsignedValue]
  | cons x xs ih =>
    simp only [unsignedValue, List.length_cons, pow_succ]
    have := x.isLt
    omega

theorem unsignedValue_objectRepr (n : Nat) (v : Int) :
    (unsignedValue (objectRepr n v) : Int) = v % 256 ^ n := by
  induction n generalizing v with
  | zero => simp [objectRepr, unsignedValue, Int.emod_one]
  | succ n ih =>
    rw [objectRepr_succ]
    simp only [unsignedValue, Nat.cast_add, Nat.cast_mul, Nat.cast_ofNat]
    rw [ih, toByte_val, pow_succ, mul_comm ((256 : Int) ^ n) 256]
    exact (ediv_emod_256_mul v _ (by positivity)).2.symm

theorem objectRepr_unsignedValue (bytes : List Byte) :
    objectRepr bytes.length (unsignedValue bytes : Int) = bytes := by
  induction bytes with
  | nil => simp [objectRepr]
  | cons x xs ih =>
    rw [List.length_cons, objectRepr_succ]
    simp only [unsignedValue, Nat.cast_add, Nat.cast_mul, Nat.cast_ofNat]
    have hx := x.isLt
    have hd : ((x.val : Int) + 256 * (unsignedValue xs : Int)) / 256 = (unsignedValue xs : Int) := by
      omega
    rw [hd, ih]
    congr 1
    apply Fin.ext
    simp only [toByte]
    omega

theorem objectRepr_emod (n : Nat) (v : Int) :
    objectRepr n (v % 256 ^ n) = objectRepr n v := by
  have h := objectRepr_unsignedValue (objectRepr n v)
  rw [length_objectRepr, unsignedValue_objectRepr] at h
  exact h

theorem objectRepr_sub_pow (n : Nat) (v : Int) :
    objectRepr n (v - 256 ^ n) = objectRepr n v := by
  rw [← objectRepr_emod n (v - 256 ^ n), ← objectRepr_emod n v]
  congr 1
  have := Int.add_mul_emod_self (a := v) (b := -1) (c := 256 ^ n)
  rw [← this]
  congr 1
  ring

theorem pow_size_eq (t : IntTy) : (2 : Int) ^ (8 * t.size) = 256 ^ t.size := by
  rw [pow_mul]; norm_num

theorem ofObject_objectRepr (t : IntTy) (v : Int) (hv : t.InRange v) :
    t.ofObject (objectRepr t.size v) = v := by
  unfold IntTy.ofObject
  simp only [unsignedValue_objectRepr]
  cases t <;> simp [IntTy.InRange, IntTy.signed, IntTy.size] at hv ⊢ <;> omega

theorem inRange_ofObject (t : IntTy) (bytes : List Byte) (h : bytes.length = t.size) :
    t.InRange (t.ofObject bytes) := by
  have hlt := unsignedValue_lt bytes
  rw [h] at hlt
  unfold IntTy.ofObject
  cases t <;> simp [IntTy.InRange, IntTy.signed, IntTy.size] at hlt ⊢ <;> omega

theorem objectRepr_ofObject (t : IntTy) (bytes : List Byte) (h : bytes.length = t.size) :
    objectRepr t.size (t.ofObject bytes) = bytes := by
  have h1 := objectRepr_unsignedValue bytes
  rw [h] at h1
  unfold IntTy.ofObject
  simp only
  split
  · rw [pow_size_eq, objectRepr_sub_pow, h1]
  · exact h1

theorem writeBytes_eq (t : IntTy) (v : Int) (LE : Bool) (b : Binary) :
    writeBytes t v LE b =
      ⟨b.buffer ++ (if LE then objectRepr t.size v else (objectRepr t.size v).reverse),
       b.readOffset, (b.writeOffset + t.size) % wrap64⟩ := by
  cases LE <;> simp [writeBytes, writeBytesSized, pushLE_eq, pushBE_eq]

theorem size_le_eight (t : IntTy) : t.size ≤ 8 := by
  cases t <;> simp [IntTy.size]

theorem size_pos (t : IntTy) : 0 < t.size := by
  cases t <;> simp [IntTy.size]

theorem getElem?_objectRepr (n : Nat) (v : Int) (i : Nat) (h : i < n) :
    (objectRepr n v)[i]? = some (toByte (v / 256 ^ i)) := by
  simp [objectRepr, List.getElem?_map, List.getElem?_range h]

theorem unsignedValue_replicate_zero (n : Nat) :
    unsignedValue (List.replicate n (0 : Byte)) = 0 := by
  induction n with
  | zero => rfl
  | succ n ih => simp [List.replicate_succ, unsignedValue, ih]

theorem ofObject_replicate_zero (t : IntTy) (n : Nat) :
    t.ofObject (List.replicate n (0 : Byte)) = 0 := by
  unfold IntTy.ofObject
  simp only [unsignedValue_replicate_zero, Nat.cast_zero]
  rw [if_neg]
  intro h
  have : (0 : Int) < 2 ^ (8 * t.size - 1) := by positivity
  omega

theorem objectRepr_one (v : Int) : objectRepr 1 v = [toByte v] := by
  rw [objectRepr_succ]
  simp [objectRepr]

theorem toByte_toChar (x : Byte) : toByte (toChar x) = x := by
  apply Fin.ext
  have hx := x.isLt
  simp only [toByte, toChar]
  split <;> omega

theorem writeInt8_eq (v : Int) (b : Binary) :
    writeInt8 v b = ⟨b.buffer ++ [toByte v], b.readOffset, (b.writeOffset + 1) % wrap64⟩ := by
  simp [writeInt8, writeBytes_eq, IntTy.size, objectRepr_one]

theorem writeUInt8_eq (v : Int) (b : Binary) :
    writeUInt8 v b = ⟨b.buffer ++ [toByte v], b.readOffset, (b.writeOffset + 1) % wrap64⟩ := by
  simp [writeUInt8, writeBytes_eq, IntTy.size, objectRepr_one]

theorem foldl_writeInt8 (str : List Byte) (b : Binary) :
    (str.foldl (fun st x => writeInt8 (toChar x) st) b).buffer = b.buffer ++ str
    ∧ (str.foldl (fun st x => writeInt8 (toChar x) st) b).readOffset = b.readOffset := by
  induction str generalizing b with
  | nil => simp
  | cons x xs ih =>
    simp only [List.foldl_cons]
    rw [(ih _).1, (ih _).2, writeInt8_eq, toByte_toChar]
    simp

theorem writeStr_buffer (str : List Byte) (b : Binary) :
    (writeStr str b).buffer = b.buffer ++ toByte (str.length : Int) :: str
    ∧ (writeStr str b).readOffset = b.readOffset := by
  unfold writeStr
  rw [(foldl_writeInt8 _ _).1, (foldl_writeInt8 _ _).2, writeUInt8_eq]
  simp

theorem readUInt8_ok (b : Binary) (hlen : b.buffer.length ≤ maxSize)
    (h : b.readOffset < b.buffer.length) :
    readUInt8 b = .ok ((b.buffer.getD b.readOffset 0).val : Int)
      { b with readOffset := b.readOffset + 1 } := by
  unfold readUInt8 readBytes
  rw [show IntTy.uchar.size = 1 from rfl, readObject_ok 1 true b hlen h]
  simp only [Outcome.map, if_true]
  congr 1
  rw [List.getD_eq_getElem _ _ h, List.drop_eq_getElem_cons h]
  simp [IntTy.ofObject, IntTy.signed, unsignedValue]

theorem readBytes_writeBytes (t : IntTy) (v : Int) (LEw LEr : Bool) :
    readBytes t LEr (writeBytes t v LEw empty) =
      .ok (t.ofObject (if LEw = LEr then objectRepr t.size v
                       else (objectRepr t.size v).reverse))
          { writeBytes t v LEw empty with readOffset := t.size } := by
  have h8 := size_le_eight t
  have hlen : (writeBytes t v LEw empty).buffer.length = t.size := by
    rw [writeBytes_eq]; cases LEw <;> simp [empty, length_objectRepr]
  have hro : (writeBytes t v LEw empty).readOffset = 0 := by rw [writeBytes_eq]; rfl
  unfold readBytes
  rw [readObject_ok _ _ _ (by rw [hlen]; simp only [maxSize]; omega) (by rw [hlen, hro]; omega)]
  have htake : List.take t.size (writeBytes t v LEw empty).buffer
      = (writeBytes t v LEw empty).buffer := List.take_of_length_le (by rw [hlen])
  simp only [Outcome.map, hro, List.drop_zero, Nat.zero_add, htake]
  rw [writeBytes_eq]
  cases LEw <;> cases LEr <;> simp [empty]

theorem objectRepr_injective (t : IntTy) (v w : Int) (hv : t.InRange v) (hw : t.InRange w)
    (h : objectRepr t.size v = objectRepr t.size w) : v = w := by
  rw [← ofObject_objectRepr t v hv, ← ofObject_objectRepr t w hw, h]

theorem getElem?_reverse_objectRepr (n : Nat) (v : Int) (i : Nat) (h : i < n) :
    (objectRepr n v).reverse[i]? = some (toByte (v / 256 ^ (n - 1 - i))) := by
  rw [List.getElem?_reverse (by rw [length_objectRepr]; exact h), length_objectRepr,
    getElem?_objectRepr _ _ _ (by omega)]

/-! ## The claims -/

/-- C1. Integer round trip: for every integer type, either byte order and every
value `v` the type can hold, writing `v` to a newly created empty `Binary` and
reading with the same type and byte order returns exactly `v` (and moves the
read cursor to the width of the type). -/
theorem int_roundtrip (t : IntTy) (LE : Bool) (v : Int) (hv : t.InRange v) :
    readBytes t LE (writeBytes t v LE empty) =
      .ok v { writeBytes t v LE empty with readOffset := t.size } := by
  have h8 := size_le_eight t
  have hlen : (writeBytes t v LE empty).buffer.length = t.size := by
    rw [writeBytes_eq]; cases LE <;> simp [empty, length_objectRepr]
  have hro : (writeBytes t v LE empty).readOffset = 0 := by rw [writeBytes_eq]; rfl
  unfold readBytes
  rw [readObject_ok _ _ _ (by rw [hlen]; simp only [maxSize]; omega) (by rw [hlen, hro]; omega)]
  simp only [Outcome.map, hro, List.drop_zero, Nat.zero_add]
  congr 1
  rw [← hlen, List.take_length]
  rw [writeBytes_eq]
  cases LE <;> simp [empty, ofObject_objectRepr t v hv]

/-- Witness of C1: `writeInt16_BE(-2)` then `readInt16_BE()`. -/
theorem int_roundtrip_witness :
    readInt16_BE (writeInt16_BE (-2) empty) = .ok (-2) ⟨[0xff, 0xfe], 2, 2⟩ :=
  int_roundtrip .short false (-2) (by decide)

/-- C2, as the claim states it, fails: on a state whose write cursor is
`2 ^ 64 - 1`, `writeUInt16_LE` leaves the write cursor at 1, not two higher. -/
theorem write_cursor_wraps :
    (⟨[], 0, 2 ^ 64 - 1⟩ : Binary).Valid ∧
    (writeUInt16_LE 0x1234 ⟨[], 0, 2 ^ 64 - 1⟩).writeOffset = 1 ∧
    (writeUInt16_LE 0x1234 ⟨[], 0, 2 ^ 64 - 1⟩).writeOffset ≠ (2 ^ 64 - 1) + 2 := by
  decide

/-- C2, amended. Write encoding: for every integer type of width `w`, every value
`v` and every state, the little-endian write appends exactly the `w` bytes
`(v >> 8 i) mod 256`, `i = 0 .. w - 1`, the big-endian write appends the same
bytes in reverse order, and the write cursor becomes the old one plus `w`
modulo `2 ^ 64`: it grows by exactly `w` whenever that sum is below `2 ^ 64`.
On a fresh buffer `writeUInt16_LE(0x1234)` then `writeUInt16_BE(0x1234)` stores
`34 12 12 34`, after which `readUInt16_LE()` and `readUInt16_BE()` both yield
`0x1234` and `getReadOffset()` is 4. -/
theorem write_encoding (t : IntTy) (v : Int) (b : Binary) :
    (writeBytes t v true b).buffer =
        b.buffer ++ (List.range t.size).map (fun (i : Nat) => toByte (v >>> (8 * i)))
    ∧ (writeBytes t v false b).buffer =
        b.buffer ++ ((List.range t.size).map (fun (i : Nat) => toByte (v >>> (8 * i)))).reverse
    ∧ (∀ LE : Bool,
        (writeBytes t v LE b).buffer.length = b.buffer.length + t.size
        ∧ (writeBytes t v LE b).writeOffset = (b.writeOffset + t.size) % 2 ^ 64
        ∧ (b.writeOffset + t.size < 2 ^ 64 →
            (writeBytes t v LE b).writeOffset = b.writeOffset + t.size))
    ∧ (writeUInt16_BE 0x1234 (writeUInt16_LE 0x1234 empty)).buffer = [0x34, 0x12, 0x12, 0x34]
    ∧ readUInt16_LE (writeUInt16_BE 0x1234 (writeUInt16_LE 0x1234 empty))
        = .ok 0x1234 ⟨[0x34, 0x12, 0x12, 0x34], 2, 4⟩
    ∧ readUInt16_BE ⟨[0x34, 0x12, 0x12, 0x34], 2, 4⟩
        = .ok 0x1234 ⟨[0x34, 0x12, 0x12, 0x34], 4, 4⟩
    ∧ getReadOffset ⟨[0x34, 0x12, 0x12, 0x34], 4, 4⟩ = 4 := by
  have hmap : (List.range t.size).map (fun (i : Nat) => toByte (v >>> (8 * i)))
      = objectRepr t.size v := by
    simp [objectRepr, shiftRight_eq_div]
  rw [hmap]
  refine ⟨by simp [writeBytes_eq], by simp [writeBytes_eq], ?_, by decide, by decide,
    by decide, by decide⟩
  intro LE
  refine ⟨?_, by simp [writeBytes_eq, wrap64], ?_⟩
  · cases LE <;> simp [writeBytes_eq, length_objectRepr]
  · intro h
    simp only [writeBytes_eq, wrap64]
    exact Nat.mod_eq_of_lt h

/-- Witness of C2 (amended): the cursor clause at `writeUInt16_LE(0x1234)` on
the empty buffer. -/
theorem write_encoding_witness :
    (0 : Nat) + 2 < 2 ^ 64 ∧ (writeUInt16_LE 0x1234 empty).writeOffset = 0 + 2 :=
  ⟨by decide, ((write_encoding .ushort 0x1234 empty).2.2.1 true).2.2 (by decide)⟩

/-- C3. Read decoding on success: for every integer type of width `w`, either
byte order and every state with `readOffset + w <= buffer.size()`, the read
returns normally a value `v` of the type whose byte `i` (two's complement,
`(v >> 8 i) mod 256`) is the stored byte at `readOffset + i` (little-endian) or
at `readOffset + w - 1 - i` (big-endian), and the read cursor advances by
exactly `w`; nothing else of the state changes. -/
theorem read_decodes (t : IntTy) (LE : Bool) (b : Binary)
    (hlen : b.buffer.length ≤ maxSize) (h : b.readOffset + t.size ≤ b.buffer.length) :
    ∃ v : Int,
      readBytes t LE b = .ok v { b with readOffset := b.readOffset + t.size }
      ∧ t.InRange v
      ∧ ∀ i : Nat, i < t.size →
          b.buffer[b.readOffset + (if LE then i else t.size - 1 - i)]?
            = some (toByte (v / 256 ^ i)) := by
  have hsl : ((b.buffer.drop b.readOffset).take t.size).length = t.size := by
    simp; omega
  unfold readBytes
  rw [readObject_ok _ _ _ hlen h]
  cases LE
  · refine ⟨_, rfl, inRange_ofObject t _ (by simp; omega), ?_⟩
    intro i hi
    rw [← getElem?_objectRepr t.size _ i hi, objectRepr_ofObject t _ (by simp; omega)]
    simp only [Bool.false_eq_true, if_false]
    rw [List.getElem?_reverse (by rw [hsl]; exact hi), hsl,
      List.getElem?_take_of_lt (by omega), List.getElem?_drop]
  · refine ⟨_, rfl, inRange_ofObject t _ (by simp; omega), ?_⟩
    intro i hi
    rw [← getElem?_objectRepr t.size _ i hi, objectRepr_ofObject t _ (by simp; omega)]
    simp only [if_true]
    rw [List.getElem?_take_of_lt hi, List.getElem?_drop]

/-- Witness of C3: `readUInt16_BE()` at offset 2 of `34 12 12 34`. -/
theorem read_decodes_witness :
    ([0x34, 0x12, 0x12, 0x34] : List Byte).length ≤ maxSize ∧
    2 + IntTy.ushort.size ≤ ([0x34, 0x12, 0x12, 0x34] : List Byte).length ∧
    ∃ v : Int,
      readBytes .ushort false ⟨[0x34, 0x12, 0x12, 0x34], 2, 4⟩
        = .ok v ⟨[0x34, 0x12, 0x12, 0x34], 2 + IntTy.ushort.size, 4⟩
      ∧ IntTy.ushort.InRange v
      ∧ ∀ i : Nat, i < IntTy.ushort.size →
          ([0x34, 0x12, 0x12, 0x34] : List Byte)[2 + (if false then i else IntTy.ushort.size - 1 - i)]?
            = some (toByte (v / 256 ^ i)) :=
  ⟨by decide, by decide,
    read_decodes .ushort false ⟨[0x34, 0x12, 0x12, 0x34], 2, 4⟩ (by decide) (by decide)⟩

/-- C4. Out-of-range fixed-width read: for every width `K` in {1, 2, 4, 8},
either byte order and every state with `readOffset <= buffer.size()` in which
fewer than `K` bytes remain after the read cursor, the read returns normally
(no failure is signalled) the all-zero object, which is the value 0 at every
integer type of that width, and the state (stored bytes and both cursors) is
exactly as before. -/
theorem read_out_of_range (K : Nat) (LE : Bool) (b : Binary)
    (hK : K = 1 ∨ K = 2 ∨ K = 4 ∨ K = 8)
    (hlen : b.buffer.length ≤ maxSize) (hro : b.readOffset ≤ b.buffer.length)
    (hshort : b.buffer.length - b.readOffset < K) :
    readObject K LE b = .ok (List.replicate K 0) b
    ∧ ∀ t : IntTy, t.size = K → readBytes t LE b = .ok 0 b := by
  have hguard : (b.readOffset + K) % wrap64 > b.buffer.length := by
    have hw : (b.readOffset + K) % wrap64 = b.readOffset + K := by
      apply Nat.mod_eq_of_lt
      simp only [maxSize, wrap64] at *
      omega
    rw [hw]; omega
  have hobj : readObject K LE b = .ok (List.replicate K 0) b := by
    unfold readObject
    simp only
    rw [if_pos hguard]
  refine ⟨hobj, ?_⟩
  intro t ht
  unfold readBytes
  rw [ht, hobj]
  simp [Outcome.map, ofObject_replicate_zero]

/-- Witness of C4: `readInt32_LE()` with three bytes remaining. -/
theorem read_out_of_range_witness :
    readObject 4 true ⟨[1, 2, 3, 4, 5], 2, 5⟩ = .ok [0, 0, 0, 0] ⟨[1, 2, 3, 4, 5], 2, 5⟩
    ∧ readInt32_LE ⟨[1, 2, 3, 4, 5], 2, 5⟩ = .ok 0 ⟨[1, 2, 3, 4, 5], 2, 5⟩ :=
  ⟨(read_out_of_range 4 true ⟨[1, 2, 3, 4, 5], 2, 5⟩ (by decide) (by decide) (by decide)
      (by decide)).1,
   (read_out_of_range 4 true ⟨[1, 2, 3, 4, 5], 2, 5⟩ (by decide) (by decide) (by decide)
      (by decide)).2 .int rfl⟩

/-- C5. String round trip: for every byte string `s` of length 0 to 255,
`writeStr(s)` on an empty buffer stores one length byte equal to `|s|` followed
by the bytes of `s` unchanged, and a following `readStr()` returns exactly `s`
and leaves the read cursor at `|s| + 1`. -/
theorem str_roundtrip (s : List Byte) (hs : s.length ≤ 255) :
    (writeStr s empty).buffer = (⟨s.length, by omega⟩ : Byte) :: s
    ∧ readStrPrefixed (writeStr s empty)
        = .ok s { writeStr s empty with readOffset := s.length + 1 } := by
  have hbyte : toByte (s.length : Int) = (⟨s.length, by omega⟩ : Byte) := by
    apply Fin.ext
    simp only [toByte]
    omega
  have hbuf : (writeStr s empty).buffer = (⟨s.length, by omega⟩ : Byte) :: s := by
    rw [(writeStr_buffer s empty).1, hbyte]; rfl
  have hro : (writeStr s empty).readOffset = 0 := (writeStr_buffer s empty).2
  refine ⟨hbuf, ?_⟩
  have hlen : (writeStr s empty).buffer.length = s.length + 1 := by rw [hbuf]; simp
  unfold readStrPrefixed
  rw [readUInt8_ok _ (by rw [hlen]; simp only [maxSize]; omega) (by rw [hlen, hro]; omega)]
  simp only [Outcome.bind, readStr, readStrBody, Bool.false_eq_true, if_false, readStrTail,
    hro, hbuf, List.getD_cons_zero, Int.toNat_ofNat, List.length_cons, Nat.zero_add]
  have hw : (1 + s.length) % wrap64 = 1 + s.length := by
    apply Nat.mod_eq_of_lt
    simp only [wrap64]; omega
  rw [hw, if_neg (by omega), if_pos (by omega)]
  simp [Outcome.noexcept, Nat.add_comm]

/-- Witness of C5: the three-byte string `41 42 43`. -/
theorem str_roundtrip_witness :
    (writeStr [0x41, 0x42, 0x43] empty).buffer = [3, 0x41, 0x42, 0x43]
    ∧ readStrPrefixed (writeStr [0x41, 0x42, 0x43] empty)
        = .ok [0x41, 0x42, 0x43] ⟨[3, 0x41, 0x42, 0x43], 4, 4⟩ :=
  str_roundtrip [0x41, 0x42, 0x43] (by decide)

set_option maxRecDepth 100000 in
/-- C6 fails on the code. For the 256-byte string `s` of bytes `41` and the
following value `x = 0x42` written with `writeUInt8`: `writeStr(s)` is accepted,
the length byte stored is 0 and all 256 bytes follow it; `readStr()` then
returns the empty string with the read cursor at 1, and the matching
`readUInt8()` returns `0x41`, a byte of `s`, instead of `x`. -/
theorem overlong_string_corrupts :
    (writeStr (List.replicate 256 0x41) empty).buffer = 0 :: List.replicate 256 0x41
    ∧ (writeUInt8 0x42 (writeStr (List.replicate 256 0x41) empty)).buffer
        = 0 :: (List.replicate 256 0x41 ++ [0x42])
    ∧ readStrPrefixed (writeUInt8 0x42 (writeStr (List.replicate 256 0x41) empty))
        = .ok [] ⟨0 :: (List.replicate 256 0x41 ++ [0x42]), 1, 258⟩
    ∧ readUInt8 ⟨0 :: (List.replicate 256 0x41 ++ [0x42]), 1, 258⟩
        = .ok 0x41 ⟨0 :: (List.replicate 256 0x41 ++ [0x42]), 2, 258⟩
    ∧ (0x41 : Int) ≠ 0x42 := by
  decide

/-- C7 fails on the code. With the stored bytes `41 42` and the read cursor at
1, `readStr(2^64 - 1, false)` asks for more than the one remaining byte, yet
`readOffset + len` wraps to 0, the guard does not fire, nothing is thrown and
the string is built from a range outside the vector. And where the guard does
fire (`readStr(3, false)` at cursor 0) the `throw` is executed inside a
`noexcept` function: `std::terminate` is called, nothing reaches the caller. -/
theorem readStr_failure_not_signalled :
    (⟨[0x41, 0x42], 1, 2⟩ : Binary).Valid
    ∧ (2 ^ 64 - 1 : Nat) > ([0x41, 0x42] : List Byte).length - 1
    ∧ readStrBody (2 ^ 64 - 1) false ⟨[0x41, 0x42], 1, 2⟩ = .undefined
    ∧ readStr (2 ^ 64 - 1) false ⟨[0x41, 0x42], 1, 2⟩ = .undefined
    ∧ readStrBody 3 false ⟨[0x41, 0x42], 0, 2⟩ = .thrown ⟨[0x41, 0x42], 0, 2⟩
    ∧ readStr 3 false ⟨[0x41, 0x42], 0, 2⟩ = .terminated := by
  decide

/-- C8. Order sensitivity: for every integer type of width `n` and every value
`v` of the type, writing `v` little-endian to an empty buffer and reading it
big-endian, or writing big-endian and reading little-endian, returns the same
value `w` of the type, whose byte `i` is byte `n - 1 - i` of `v` (the
byte-reversed value); and `w = v` exactly when the byte sequence of `v` is a
palindrome. -/
theorem order_sensitivity (t : IntTy) (v : Int) (hv : t.InRange v) :
    ∃ w : Int,
      readBytes t false (writeBytes t v true empty)
        = .ok w { writeBytes t v true empty with readOffset := t.size }
      ∧ readBytes t true (writeBytes t v false empty)
        = .ok w { writeBytes t v false empty with readOffset := t.size }
      ∧ t.InRange w
      ∧ (∀ i : Nat, i < t.size → toByte (w / 256 ^ i) = toByte (v / 256 ^ (t.size - 1 - i)))
      ∧ (w = v ↔
          ∀ i : Nat, i < t.size → toByte (v / 256 ^ i) = toByte (v / 256 ^ (t.size - 1 - i))) := by
  have hrl : (objectRepr t.size v).reverse.length = t.size := by
    simp [length_objectRepr]
  have hw := inRange_ofObject t _ hrl
  have hrepr := objectRepr_ofObject t _ hrl
  refine ⟨t.ofObject (objectRepr t.size v).reverse, ?_, ?_, hw, ?_, ?_⟩
  · rw [readBytes_writeBytes]; simp
  · rw [readBytes_writeBytes]; simp
  · intro i hi
    have h1 := getElem?_objectRepr t.size (t.ofObject (objectRepr t.size v).reverse) i hi
    rw [hrepr, getElem?_reverse_objectRepr _ _ _ hi] at h1
    exact (Option.some.inj h1).symm
  · constructor
    · intro heq i hi
      have h1 := getElem?_objectRepr t.size (t.ofObject (objectRepr t.size v).reverse) i hi
      rw [hrepr, getElem?_reverse_objectRepr _ _ _ hi, heq] at h1
      exact (Option.some.inj h1).symm
    · intro hpal
      apply objectRepr_injective t _ _ hw hv
      rw [hrepr]
      apply List.ext_getElem?
      intro i
      by_cases hi : i < t.size
      · rw [getElem?_reverse_objectRepr _ _ _ hi, getElem?_objectRepr _ _ _ hi, hpal i hi]
      · rw [List.getElem?_eq_none (by rw [hrl]; omega),
          List.getElem?_eq_none (by rw [length_objectRepr]; omega)]

/-- Witness of C8: `0x1234` as `unsigned short` reads back as `0x3412`. -/
theorem order_sensitivity_witness :
    ∃ w : Int,
      readUInt16_BE (writeUInt16_LE 0x1234 empty) = .ok w ⟨[0x34, 0x12], 2, 2⟩
      ∧ readUInt16_LE (writeUInt16_BE 0x1234 empty) = .ok w ⟨[0x12, 0x34], 2, 2⟩
      ∧ IntTy.ushort.InRange w
      ∧ (∀ i : Nat, i < 2 → toByte (w / 256 ^ i) = toByte (0x1234 / 256 ^ (2 - 1 - i)))
      ∧ (w = 0x1234 ↔
          ∀ i : Nat, i < 2 → toByte (0x1234 / 256 ^ i) = toByte (0x1234 / 256 ^ (2 - 1 - i))) :=
  order_sensitivity .ushort 0x1234 (by decide)

end Binary

theorem ReadOp.width_le_eight (op : ReadOp) : op.width ≤ 8 := by
  cases op <;> simp [ReadOp.width, Binary.size_le_eight]

theorem ReadOp.run_ok (op : ReadOp) (b : Binary) (hlen : b.buffer.length ≤ Binary.maxSize)
    (h : b.readOffset + op.width ≤ b.buffer.length) :
    op.run b = .ok () { b with readOffset := b.readOffset + op.width } := by
  cases op <;>
    simp only [ReadOp.run, ReadOp.width, Binary.readBytes] at h ⊢ <;>
    rw [Binary.readObject_ok _ _ _ hlen h] <;> rfl

theorem runReads_from (ops : List ReadOp) (b : Binary)
    (hlen : b.buffer.length ≤ Binary.maxSize)
    (h : b.readOffset + (ops.map ReadOp.width).sum ≤ b.buffer.length) :
    runReads ops b
      = .ok () { b with readOffset := b.readOffset + (ops.map ReadOp.width).sum } := by
  induction ops generalizing b with
  | nil => simp [runReads]
  | cons op ops ih =>
    simp only [List.map_cons, List.sum_cons] at h ⊢
    rw [runReads, ReadOp.run_ok op b hlen (by omega)]
    simp only [Outcome.bind]
    rw [ih ⟨b.buffer, b.readOffset + op.width, b.writeOffset⟩ hlen (by simp only; omega)]
    simp [Nat.add_assoc]

/-- C9. Cursor accounting: for every list of fixed-width reads whose widths total
`W` and every buffer holding at least `W` bytes, performing the reads in
sequence from read offset 0 returns normally and leaves `getReadOffset()` equal
to exactly `W`, whatever the stored bytes are; the stored bytes and the write
cursor are unchanged. -/
theorem cursor_accounting (ops : List ReadOp) (buf : List Byte) (wo : Nat)
    (hlen : buf.length ≤ Binary.maxSize)
    (h : (ops.map ReadOp.width).sum ≤ buf.length) :
    ∃ st : Binary,
      runReads ops ⟨buf, 0, wo⟩ = .ok () st
      ∧ st.getReadOffset = (ops.map ReadOp.width).sum
      ∧ st.buffer = buf ∧ st.writeOffset = wo := by
  refine ⟨⟨buf, 0 + (ops.map ReadOp.width).sum, wo⟩, ?_, ?_, rfl, rfl⟩
  · exact runReads_from ops ⟨buf, 0, wo⟩ hlen (by simpa using h)
  · simp [Binary.getReadOffset]

/-- Witness of C9: `readUInt16_LE`, `readBool`, `readInt32_BE` on eight bytes. -/
theorem cursor_accounting_witness :
    ∃ st : Binary,
      runReads [.int .ushort true, .bool, .int .int false] ⟨[1, 2, 3, 4, 5, 6, 7, 8], 0, 0⟩
        = .ok () st
      ∧ st.getReadOffset = 7
      ∧ st.buffer = [1, 2, 3, 4, 5, 6, 7, 8] ∧ st.writeOffset = 0 :=
  cursor_accounting [.int .ushort true, .bool, .int .int false] [1, 2, 3, 4, 5, 6, 7, 8] 0
    (by decide) (by decide)

/-- C10. Clear resets state: for every state (so for every state reached by
writes, reads, `setBuffer` and `setReadOffset`), `clear()` yields the state of
a newly constructed empty `Binary`: no stored bytes, read cursor 0 and write
cursor 0. -/
theorem clear_resets (b : Binary) :
    b.clear = Binary.empty
    ∧ b.clear.getBuffer = [] ∧ b.clear.getReadOffset = 0 ∧ b.clear.writeOffset = 0 := by
  exact ⟨rfl, rfl, rfl, rfl⟩

namespace Binary

theorem bitsOfObject_eq_uint : bitsOfObject = IntTy.uint.ofObject := by
  funext o
  simp [bitsOfObject, IntTy.ofObject, IntTy.signed]

theorem bitsOfObject_eq_ullong : bitsOfObject = IntTy.ullong.ofObject := by
  funext o
  simp [bitsOfObject, IntTy.ofObject, IntTy.signed]

theorem readFloat_eq (LE : Bool) (b : Binary) :
    (readObject 4 LE b).map bitsOfObject = readBytes .uint LE b := by
  rw [bitsOfObject_eq_uint]; rfl

theorem readDouble_eq (LE : Bool) (b : Binary) :
    (readObject 8 LE b).map bitsOfObject = readBytes .ullong LE b := by
  rw [bitsOfObject_eq_ullong]; rfl

theorem readBytes_writeBytes_same (t : IntTy) (LE : Bool) (v : Int) (hv : t.InRange v) :
    readBytes t LE (writeBytes t v LE empty) =
      .ok v { writeBytes t v LE empty with readOffset := t.size } := by
  rw [readBytes_writeBytes, if_pos rfl, ofObject_objectRepr t v hv]

/-- C11. Floating point mirrors the integer path, a `float` or `double` being
given by its bit pattern: `writeFloat_LE/_BE` do to the state exactly what
`writeUInt32_LE/_BE` of the pattern do, `readFloat_LE/_BE` return the pattern
that `readUInt32_LE/_BE` return as a value (and the same state), likewise
`writeDouble`/`readDouble` against `UInt64`; and writing any 32-bit (64-bit)
pattern to an empty buffer and reading it back returns the identical pattern. -/
theorem float_mirrors_int (bits : Int) (b : Binary) :
    (writeFloat_LE bits b = writeUInt32_LE bits b
      ∧ writeFloat_BE bits b = writeUInt32_BE bits b
      ∧ writeDouble_LE bits b = writeUInt64_LE bits b
      ∧ writeDouble_BE bits b = writeUInt64_BE bits b)
    ∧ (readFloat_LE b = readUInt32_LE b
      ∧ readFloat_BE b = readUInt32_BE b
      ∧ readDouble_LE b = readUInt64_LE b
      ∧ readDouble_BE b = readUInt64_BE b)
    ∧ (0 ≤ bits ∧ bits < 2 ^ 32 →
        readFloat_LE (writeFloat_LE bits empty)
          = .ok bits { writeFloat_LE bits empty with readOffset := 4 }
        ∧ readFloat_BE (writeFloat_BE bits empty)
          = .ok bits { writeFloat_BE bits empty with readOffset := 4 })
    ∧ (0 ≤ bits ∧ bits < 2 ^ 64 →
        readDouble_LE (writeDouble_LE bits empty)
          = .ok bits { writeDouble_LE bits empty with readOffset := 8 }
        ∧ readDouble_BE (writeDouble_BE bits empty)
          = .ok bits { writeDouble_BE bits empty with readOffset := 8 }) := by
  refine ⟨⟨rfl, rfl, rfl, rfl⟩,
    ⟨readFloat_eq true b, readFloat_eq false b, readDouble_eq true b, readDouble_eq false b⟩,
    ?_, ?_⟩
  · intro h
    have hr : IntTy.uint.InRange bits := by
      simp only [IntTy.InRange, IntTy.signed, IntTy.size]
      norm_num
      exact h
    constructor
    · simp only [readFloat_LE, readFloat_eq]
      exact readBytes_writeBytes_same .uint true bits hr
    · simp only [readFloat_BE, readFloat_eq]
      exact readBytes_writeBytes_same .uint false bits hr
  · intro h
    have hr : IntTy.ullong.InRange bits := by
      simp only [IntTy.InRange, IntTy.signed, IntTy.size]
      norm_num
      exact h
    constructor
    · simp only [readDouble_LE, readDouble_eq]
      exact readBytes_writeBytes_same .ullong true bits hr
    · simp only [readDouble_BE, readDouble_eq]
      exact readBytes_writeBytes_same .ullong false bits hr

/-- Witness of C11: a quiet NaN pattern as `float`, big-endian, and an
infinity pattern as `double`, little-endian. -/
theorem float_mirrors_int_witness :
    readFloat_BE (writeFloat_BE 0x7fc00001 empty)
      = .ok 0x7fc00001 ⟨[0x7f, 0xc0, 0x00, 0x01], 4, 4⟩
    ∧ readDouble_LE (writeDouble_LE 0x7ff0000000000000 empty)
      = .ok 0x7ff0000000000000 ⟨[0, 0, 0, 0, 0, 0, 0xf0, 0x7f], 8, 8⟩ :=
  ⟨((float_mirrors_int 0x7fc00001 empty).2.2.1 (by decide)).2,
   ((float_mirrors_int 0x7ff0000000000000 empty).2.2.2 (by decide)).1⟩

theorem writeBool_eq (v : Bool) (b : Binary) :
    writeBool v b =
      ⟨b.buffer ++ [if v then 1 else 0], b.readOffset, (b.writeOffset + 1) % wrap64⟩ := by
  cases v <;> simp [writeBool, writeBytesSized, pushLE_eq, objectRepr_one] <;> rfl

theorem readObject_one (b : Binary) (hlen : b.buffer.length ≤ maxSize)
    (h : b.readOffset < b.buffer.length) :
    readObject 1 true b
      = .ok [b.buffer.getD b.readOffset 0] { b with readOffset := b.readOffset + 1 } := by
  rw [readObject_ok 1 true b hlen h]
  simp only [if_true]
  congr 1
  rw [List.getD_eq_getElem _ _ h, List.drop_eq_getElem_cons h]
  rfl

/-- C12, as the claim states it, fails: with the stored byte `02`, `readBool()`
consumes the byte but its result holds no value of type `bool`; it is not
`true`. -/
theorem readBool_of_two :
    readBool ⟨[2], 0, 0⟩ = .ok none ⟨[2], 1, 0⟩
    ∧ readBool ⟨[2], 0, 0⟩ ≠ .ok (some true) ⟨[2], 1, 0⟩ := by
  decide

/-- C12, amended. Boolean encoding: `writeBool(false)` appends exactly the byte
0 and `writeBool(true)` exactly the byte 1; `readBool()` with at least one byte
remaining returns normally, consumes exactly one byte and yields `false` when
that byte is 0 and `true` when it is 1; so `readBool` after `writeBool(v)` on
an empty buffer returns `v`. -/
theorem bool_encoding (b : Binary) (v : Bool) :
    (writeBool false b).buffer = b.buffer ++ [0]
    ∧ (writeBool true b).buffer = b.buffer ++ [1]
    ∧ (b.buffer.length ≤ maxSize → b.readOffset < b.buffer.length →
        ∃ r : Option Bool,
          readBool b = .ok r { b with readOffset := b.readOffset + 1 }
          ∧ (b.buffer[b.readOffset]? = some 0 → r = some false)
          ∧ (b.buffer[b.readOffset]? = some 1 → r = some true))
    ∧ readBool (writeBool v empty) = .ok (some v) { writeBool v empty with readOffset := 1 } := by
  refine ⟨by simp [writeBool_eq], by simp [writeBool_eq], ?_, ?_⟩
  · intro hlen h
    refine ⟨_, by rw [readBool, readObject_one b hlen h]; rfl, ?_, ?_⟩
    · intro h0
      rw [List.getElem?_eq_getElem h] at h0
      rw [List.getD_eq_getElem _ _ h, Option.some.inj h0]
      rfl
    · intro h1
      rw [List.getElem?_eq_getElem h] at h1
      rw [List.getD_eq_getElem _ _ h, Option.some.inj h1]
      rfl
  · cases v <;> decide

/-- Witness of C12 (amended): `readBool()` on the stored byte `01`. -/
theorem bool_encoding_witness :
    ∃ r : Option Bool,
      readBool ⟨[1], 0, 1⟩ = .ok r ⟨[1], 1, 1⟩
      ∧ (([1] : List Byte)[0]? = some 0 → r = some false)
      ∧ (([1] : List Byte)[0]? = some 1 → r = some true) :=
  (bool_encoding ⟨[1], 0, 1⟩ true).2.2.1 (by decide) (by decide)

set_option maxRecDepth 100000 in
theorem hexField_eq (x : Byte) :
    hexField x = ["0123456789abcdef".toList.getD (x.val / 16) '0',
                  "0123456789abcdef".toList.getD (x.val % 16) '0'] := by
  revert x
  decide

theorem foldl_append_range (g : Nat → List Char) (n : Nat) (acc : List Char) :
    (List.range n).foldl (fun str i => str ++ g i) acc = acc ++ ((List.range n).map g).flatten := by
  induction n with
  | zero => simp
  | succ n ih => simp [List.range_succ, List.foldl_append, ih]

theorem map_range_getD_all (l : List Byte) :
    (List.range l.length).map (fun i => l.getD i 0) = l := by
  have h := map_range_getD_slice l 0 l.length (by omega)
  simpa using h

theorem byteStr_true_eq (b : Binary) :
    byteStr true b = (b.buffer.map fun x => hexField x ++ [' ']).flatten := by
  have h := foldl_append_range (fun i => hexField (b.buffer.getD i 0) ++ [' '])
    b.buffer.length []
  simp only [List.append_assoc, List.nil_append] at h
  simp only [byteStr, if_true, List.append_assoc]
  rw [h]
  congr 1
  conv_rhs => rw [← map_range_getD_all b.buffer]
  simp [List.map_map, Function.comp]

theorem byteStr_false_eq (b : Binary) :
    byteStr false b = (b.buffer.reverse.map fun x => hexField x ++ [' ']).flatten := by
  have h := foldl_append_range
    (fun i => hexField (b.buffer.getD (b.buffer.length - i - 1) 0) ++ [' ']) b.buffer.length []
  simp only [List.append_assoc, List.nil_append] at h
  simp only [byteStr, Bool.false_eq_true, if_false, List.append_assoc]
  rw [h]
  congr 1
  conv_rhs => rw [← map_range_getD_rev b.buffer]
  simp [List.map_map, Function.comp]

theorem length_flatten_groups (l : List Byte) :
    ((l.map fun x => hexField x ++ [' ']).flatten).length = 3 * l.length := by
  induction l with
  | nil => rfl
  | cons x xs ih =>
    simp only [List.map_cons, List.flatten_cons, List.length_append, ih]
    rw [hexField_eq]
    simp only [List.length_cons, List.length_nil]
    omega

/-- C13. Hex dump: for every stored sequence of `n` bytes, `byteStr(true)` is
the concatenation, in stored order, of one group per byte made of the byte as
two lower-case zero-padded hex digits and a space, so it has length `3 n` and
ends in a space when `n > 0`; `byteStr(false)` equals `byteStr(true)` of the
reversed sequence.  (`byteStr` is a `const` member: it yields the string and
no new state.) -/
theorem hex_dump (b : Binary) :
    byteStr true b
      = (b.buffer.map fun x =>
          ["0123456789abcdef".toList.getD (x.val / 16) '0',
           "0123456789abcdef".toList.getD (x.val % 16) '0', ' ']).flatten
    ∧ (byteStr true b).length = 3 * b.buffer.length
    ∧ (0 < b.buffer.length → (byteStr true b).getLast? = some ' ')
    ∧ byteStr false b = byteStr true { b with buffer := b.buffer.reverse } := by
  refine ⟨?_, ?_, ?_, ?_⟩
  · rw [byteStr_true_eq]
    congr 1
    apply List.map_congr_left
    intro x _
    rw [hexField_eq]; rfl
  · rw [byteStr_true_eq, length_flatten_groups]
  · intro hpos
    rw [byteStr_true_eq]
    obtain ⟨ys, y, hy⟩ : ∃ ys y, b.buffer = ys ++ [y] := by
      have hne : b.buffer ≠ [] := by
        intro h; rw [h] at hpos; simp at hpos
      exact ⟨b.buffer.dropLast, b.buffer.getLast hne, (List.dropLast_append_getLast hne).symm⟩
    rw [hy]
    simp [List.getLast?_append]
  · rw [byteStr_false_eq, byteStr_true_eq]

/-- Witness of C13: the dump of `0a ff 00`. -/
theorem hex_dump_witness :
    0 < ([0x0a, 0xff, 0x00] : List Byte).length
    ∧ (byteStr true ⟨[0x0a, 0xff, 0x00], 0, 3⟩).getLast? = some ' ' :=
  ⟨by decide, (hex_dump ⟨[0x0a, 0xff, 0x00], 0, 3⟩).2.2.1 (by decide)⟩

theorem toByte_ofByte (x : Byte) : toByte (x.val : Int) = x := by
  apply Fin.ext
  have hx := x.isLt
  simp only [toByte]
  omega

theorem add_one_mod_wrap (a n : Nat) : ((a + n) % wrap64 + 1) % wrap64 = (a + (n + 1)) % wrap64 := by
  simp only [wrap64]
  omega

theorem writeBytesPtr_take (data : List Byte) (n : Nat) (b : Binary) (h : n ≤ data.length)
    (hwo : b.writeOffset < wrap64) :
    writeBytesPtr data n b
      = ⟨b.buffer ++ data.take n, b.readOffset, (b.writeOffset + n) % wrap64⟩ := by
  induction n with
  | zero =>
    cases b
    simp only [writeBytesPtr, List.range_zero, List.foldl_nil, List.take_zero, List.append_nil,
      Nat.add_zero]
    rw [Nat.mod_eq_of_lt hwo]
  | succ n ih =>
    have hn : n < data.length := h
    have ih2 := ih (Nat.le_of_lt hn)
    unfold writeBytesPtr at ih2 ⊢
    rw [List.range_succ, List.foldl_append, ih2]
    simp only [List.foldl_cons, List.foldl_nil]
    rw [writeBytes_eq, List.getD_eq_getElem _ _ hn]
    simp only [if_true, IntTy.size, objectRepr_one, toByte_ofByte, add_one_mod_wrap,
      List.append_assoc]
    rw [List.take_succ, List.getElem?_eq_getElem hn]
    rfl

theorem writeBytesPtr_eq (data : List Byte) (b : Binary) (hwo : b.writeOffset < wrap64) :
    writeBytesPtr data data.length b
      = ⟨b.buffer ++ data, b.readOffset, (b.writeOffset + data.length) % wrap64⟩ := by
  rw [writeBytesPtr_take data data.length b (Nat.le_refl _) hwo, List.take_length]

/-- C14, as the claim states it, fails: on a state whose write cursor is
`2 ^ 64 - 1`, appending the one byte `41` with either overload leaves the write
cursor at 0, not one higher. -/
theorem raw_append_cursor_wraps :
    (⟨[], 0, 2 ^ 64 - 1⟩ : Binary).Valid
    ∧ (writeBytesVec [0x41] ⟨[], 0, 2 ^ 64 - 1⟩).writeOffset = 0
    ∧ (writeBytesPtr [0x41] 1 ⟨[], 0, 2 ^ 64 - 1⟩).writeOffset = 0
    ∧ (writeBytesVec [0x41] ⟨[], 0, 2 ^ 64 - 1⟩).writeOffset ≠ (2 ^ 64 - 1) + 1 := by
  decide

/-- C14, amended. Raw byte append: for every state and every byte sequence `d`,
both raw `writeBytes` overloads (pointer with length `|d|`, and vector) leave
the stored sequence equal to the previous one followed by `d` byte for byte,
leave the read cursor unchanged, and make the write cursor the old one plus
`|d|` modulo `2 ^ 64`: it advances by exactly `|d|` whenever that sum is below
`2 ^ 64`. -/
theorem raw_append (d : List Byte) (b : Binary) (hwo : b.writeOffset < 2 ^ 64) :
    (writeBytesPtr d d.length b).buffer = b.buffer ++ d
    ∧ (writeBytesVec d b).buffer = b.buffer ++ d
    ∧ (writeBytesPtr d d.length b).readOffset = b.readOffset
    ∧ (writeBytesVec d b).readOffset = b.readOffset
    ∧ (writeBytesPtr d d.length b).writeOffset = (b.writeOffset + d.length) % 2 ^ 64
    ∧ (writeBytesVec d b).writeOffset = (b.writeOffset + d.length) % 2 ^ 64
    ∧ (b.writeOffset + d.length < 2 ^ 64 →
        (writeBytesPtr d d.length b).writeOffset = b.writeOffset + d.length
        ∧ (writeBytesVec d b).writeOffset = b.writeOffset + d.length) := by
  have hv : writeBytesVec d b = writeBytesPtr d d.length b := rfl
  rw [hv, writeBytesPtr_eq d b hwo]
  refine ⟨rfl, rfl, rfl, rfl, rfl, rfl, ?_⟩
  intro h
  exact ⟨Nat.mod_eq_of_lt h, Nat.mod_eq_of_lt h⟩

/-- Witness of C14 (amended): appending `41 42` to a buffer holding `07`. -/
theorem raw_append_witness :
    (1 : Nat) < 2 ^ 64 ∧ 1 + ([0x41, 0x42] : List Byte).length < 2 ^ 64
    ∧ (writeBytesPtr [0x41, 0x42] 2 ⟨[7], 0, 1⟩).buffer = [7, 0x41, 0x42]
    ∧ (writeBytesPtr [0x41, 0x42] 2 ⟨[7], 0, 1⟩).writeOffset = 1 + 2
    ∧ (writeBytesVec [0x41, 0x42] ⟨[7], 0, 1⟩).writeOffset = 1 + 2 :=
  ⟨by decide, by decide, (raw_append [0x41, 0x42] ⟨[7], 0, 1⟩ (by decide)).1,
    (raw_append [0x41, 0x42] ⟨[7], 0, 1⟩ (by decide)).2.2.2.2.2.2 (by decide)⟩

/-! ## Frame and cursor facts about the reads -/

theorem readObject_total (K : Nat) (LE : Bool) (b : Binary) (hK : K ≤ 8)
    (hlen : b.buffer.length ≤ maxSize) (hro : b.readOffset ≤ b.buffer.length) :
    ∃ o st, readObject K LE b = .ok o st
      ∧ st.buffer = b.buffer ∧ st.writeOffset = b.writeOffset
      ∧ (st.readOffset = b.readOffset
          ∨ (st.readOffset = b.readOffset + K ∧ b.readOffset + K ≤ b.buffer.length)) := by
  by_cases h : b.readOffset + K ≤ b.buffer.length
  · exact ⟨_, _, readObject_ok K LE b hlen h, rfl, rfl, Or.inr ⟨rfl, h⟩⟩
  · have hw : (b.readOffset + K) % wrap64 = b.readOffset + K := by
      apply Nat.mod_eq_of_lt
      simp only [maxSize, wrap64] at *
      omega
    refine ⟨List.replicate K 0, b, ?_, rfl, rfl, Or.inl rfl⟩
    unfold readObject
    simp only [hw]
    rw [if_pos (by omega)]

theorem readObject_frame (K : Nat) (LE : Bool) (b : Binary) (o : List Byte) (st : Binary)
    (h : readObject K LE b = .ok o st) :
    st.buffer = b.buffer ∧ st.writeOffset = b.writeOffset := by
  unfold readObject at h
  simp only at h
  split at h
  · cases h; exact ⟨rfl, rfl⟩
  · split at h
    · cases h; exact ⟨rfl, rfl⟩
    · cases h

theorem readStrTail_ok (len : Nat) (b : Binary) (s : List Byte) (st : Binary)
    (hlen : b.buffer.length ≤ maxSize) (h : readStrTail len b = .ok s st) :
    st.buffer = b.buffer ∧ st.writeOffset = b.writeOffset
      ∧ st.readOffset ≤ b.buffer.length ∧ st.readOffset = b.readOffset + len
      ∧ s = (b.buffer.drop b.readOffset).take len := by
  unfold readStrTail at h
  split at h
  · cases h
  · split at h
    · rename_i hle
      cases h
      have hw : (b.readOffset + len) % wrap64 = b.readOffset + len := by
        apply Nat.mod_eq_of_lt
        simp only [maxSize, wrap64] at *
        omega
      exact ⟨rfl, rfl, by simp only [hw]; exact hle, hw, rfl⟩
    · cases h

theorem readStrTail_thrown (len : Nat) (b st : Binary)
    (h : readStrTail len b = .thrown st) : st = b := by
  unfold readStrTail at h
  split at h
  · cases h; rfl
  · split at h <;> cases h

theorem readUInt8_total (b : Binary) (hlen : b.buffer.length ≤ maxSize)
    (hro : b.readOffset ≤ b.buffer.length) :
    ∃ n b1, readUInt8 b = .ok n b1
      ∧ b1.buffer = b.buffer ∧ b1.writeOffset = b.writeOffset
      ∧ b1.readOffset ≤ b1.buffer.length
      ∧ (b1.readOffset = b.readOffset
          ∨ (b1.readOffset = b.readOffset + 1 ∧ b.readOffset < b.buffer.length)) := by
  obtain ⟨o, st, h, hb, hw, hr⟩ := readObject_total 1 true b (by omega) hlen hro
  refine ⟨IntTy.uchar.ofObject o, st, ?_, hb, hw, ?_, ?_⟩
  · unfold readUInt8 readBytes
    rw [show IntTy.uchar.size = 1 from rfl, h]; rfl
  · rw [hb]; omega
  · omega

theorem readStrTail_state (len : Nat) (b st : Binary) (hlen : b.buffer.length ≤ maxSize)
    (hro : b.readOffset ≤ b.buffer.length)
    (h : (∃ s, readStrTail len b = .ok s st) ∨ readStrTail len b = .thrown st) :
    st.buffer = b.buffer ∧ st.writeOffset = b.writeOffset
      ∧ st.readOffset ≤ st.buffer.length := by
  rcases h with ⟨s, h⟩ | h
  · obtain ⟨h1, h2, h3, _, _⟩ := readStrTail_ok len b s st hlen h
    exact ⟨h1, h2, by rw [h1]; exact h3⟩
  · rw [readStrTail_thrown len b st h]
    exact ⟨rfl, rfl, hro⟩

theorem readStrBody_state (len : Nat) (lb : Bool) (b st : Binary)
    (hlen : b.buffer.length ≤ maxSize) (hro : b.readOffset ≤ b.buffer.length)
    (h : (∃ s, readStrBody len lb b = .ok s st) ∨ readStrBody len lb b = .thrown st) :
    st.buffer = b.buffer ∧ st.writeOffset = b.writeOffset
      ∧ st.readOffset ≤ st.buffer.length := by
  cases lb
  · simp only [readStrBody, Bool.false_eq_true, if_false] at h
    exact readStrTail_state len b st hlen hro h
  · obtain ⟨n, b1, h1, hb, hw, hr, _⟩ := readUInt8_total b hlen hro
    simp only [readStrBody, if_true, h1, Outcome.bind] at h
    obtain ⟨h2, h3, h4⟩ := readStrTail_state len b1 st (by rw [hb]; exact hlen) hr h
    exact ⟨by rw [h2, hb], by rw [h3, hw], h4⟩

theorem noexcept_ok {α : Type} (o : Outcome α) (v : α) (st : Binary)
    (h : o.noexcept = .ok v st) : o = .ok v st := by
  cases o <;> simp [Outcome.noexcept] at h ⊢
  exact h

theorem readStrTail_defined (len : Nat) (b : Binary) (hlen : b.buffer.length ≤ maxSize)
    (hro : b.readOffset ≤ b.buffer.length) (hl : len ≤ maxSize) :
    readStrTail len b ≠ .undefined := by
  have hw : (b.readOffset + len) % wrap64 = b.readOffset + len := by
    apply Nat.mod_eq_of_lt
    simp only [maxSize, wrap64] at *
    omega
  unfold readStrTail
  rw [hw]
  by_cases h : b.readOffset + len > b.buffer.length
  · rw [if_pos h]; simp
  · rw [if_neg h, if_pos (by omega)]; simp

theorem readOp_run_total (op : ReadOp) (b : Binary) (hlen : b.buffer.length ≤ maxSize)
    (hro : b.readOffset ≤ b.buffer.length) :
    ∃ st, op.run b = .ok () st
      ∧ st.buffer = b.buffer ∧ st.writeOffset = b.writeOffset
      ∧ st.readOffset ≤ st.buffer.length := by
  obtain ⟨o, st, h, hb, hw, hr⟩ :=
    readObject_total op.width true b (ReadOp.width_le_eight op) hlen hro
  obtain ⟨o2, st2, h2, hb2, hw2, hr2⟩ :=
    readObject_total op.width false b (ReadOp.width_le_eight op) hlen hro
  cases op with
  | int t LE =>
    cases LE
    · exact ⟨st2, by simp only [ReadOp.run, readBytes]; rw [show t.size = (ReadOp.int t false).width from rfl, h2]; rfl,
        hb2, hw2, by rw [hb2]; omega⟩
    · exact ⟨st, by simp only [ReadOp.run, readBytes]; rw [show t.size = (ReadOp.int t true).width from rfl, h]; rfl,
        hb, hw, by rw [hb]; omega⟩
  | bool =>
    exact ⟨st, by simp only [ReadOp.run]; rw [show 1 = ReadOp.bool.width from rfl, h]; rfl,
      hb, hw, by rw [hb]; omega⟩
  | float LE =>
    cases LE
    · exact ⟨st2, by simp only [ReadOp.run]; rw [show 4 = (ReadOp.float false).width from rfl, h2]; rfl,
        hb2, hw2, by rw [hb2]; omega⟩
    · exact ⟨st, by simp only [ReadOp.run]; rw [show 4 = (ReadOp.float true).width from rfl, h]; rfl,
        hb, hw, by rw [hb]; omega⟩
  | double LE =>
    cases LE
    · exact ⟨st2, by simp only [ReadOp.run]; rw [show 8 = (ReadOp.double false).width from rfl, h2]; rfl,
        hb2, hw2, by rw [hb2]; omega⟩
    · exact ⟨st, by simp only [ReadOp.run]; rw [show 8 = (ReadOp.double true).width from rfl, h]; rfl,
        hb, hw, by rw [hb]; omega⟩

/-- C15. The read-cursor bound is preserved by reads: for every state with
`readOffset <= buffer.size()`, every fixed-width read (any width up to 8, either
byte order; so every integer, bool, float and double read) returns normally in
a state where the bound still holds, whether it decoded or returned the silent
zero; and for `readStr(len, lengthBased)` and `readStr()` the bound holds in
the state of every normal return and in the state in which the `throw` is
executed.  For lengths up to the largest vector size the string reads end in
one of these two ways. -/
theorem read_cursor_bound (b : Binary) (hlen : b.buffer.length ≤ maxSize)
    (hro : b.readOffset ≤ b.buffer.length) :
    (∀ (K : Nat) (LE : Bool), K ≤ 8 →
        ∃ o st, readObject K LE b = .ok o st ∧ st.readOffset ≤ st.buffer.length)
    ∧ (∀ op : ReadOp, ∃ st, op.run b = .ok () st ∧ st.readOffset ≤ st.buffer.length)
    ∧ (∀ (len : Nat) (lengthBased : Bool) (st : Binary),
        ((∃ s, readStrBody len lengthBased b = .ok s st)
          ∨ readStrBody len lengthBased b = .thrown st) →
        st.readOffset ≤ st.buffer.length)
    ∧ (∀ (len : Nat) (lengthBased : Bool) (s : List Byte) (st : Binary),
        readStr len lengthBased b = .ok s st → st.readOffset ≤ st.buffer.length)
    ∧ (∀ (s : List Byte) (st : Binary),
        readStrPrefixed b = .ok s st → st.readOffset ≤ st.buffer.length)
    ∧ (∀ (n : Int) (b1 st : Binary), readUInt8 b = .ok n b1 →
        readStrBody n.toNat false b1 = .thrown st → st.readOffset ≤ st.buffer.length)
    ∧ (∀ (len : Nat) (lengthBased : Bool), len ≤ maxSize →
        readStrBody len lengthBased b ≠ .undefined) := by
  refine ⟨?_, ?_, ?_, ?_, ?_, ?_, ?_⟩
  · intro K LE hK
    obtain ⟨o, st, h, hb, _, hr⟩ := readObject_total K LE b hK hlen hro
    exact ⟨o, st, h, by rw [hb]; omega⟩
  · intro op
    obtain ⟨st, h, _, _, hr⟩ := readOp_run_total op b hlen hro
    exact ⟨st, h, hr⟩
  · intro len lb st h
    exact (readStrBody_state len lb b st hlen hro h).2.2
  · intro len lb s st h
    exact (readStrBody_state len lb b st hlen hro (Or.inl ⟨s, noexcept_ok _ _ _ h⟩)).2.2
  · intro s st h
    obtain ⟨n, b1, h1, hb, _, hr, _⟩ := readUInt8_total b hlen hro
    have h2 := noexcept_ok _ _ _ h
    rw [h1] at h2
    simp only [Outcome.bind] at h2
    have h3 := noexcept_ok _ _ _ h2
    exact (readStrBody_state _ false b1 st (by rw [hb]; exact hlen) hr (Or.inl ⟨s, h3⟩)).2.2
  · intro n b1 st h1 h2
    obtain ⟨n2, b2, h3, hb, _, hr, _⟩ := readUInt8_total b hlen hro
    rw [h1] at h3
    cases h3
    exact (readStrBody_state _ false b1 st (by rw [hb]; exact hlen) hr (Or.inr h2)).2.2
  · intro len lb hl
    cases lb
    · simp only [readStrBody, Bool.false_eq_true, if_false]
      exact readStrTail_defined len b hlen hro hl
    · obtain ⟨n, b1, h1, hb, _, hr, _⟩ := readUInt8_total b hlen hro
      simp only [readStrBody, if_true, h1, Outcome.bind]
      exact readStrTail_defined len b1 (by rw [hb]; exact hlen) hr hl

/-- Witness of C15: `readStr(5, true)` on three bytes: the prefix byte is
consumed and the `throw` is executed with the cursor at 1. -/
theorem read_cursor_bound_witness :
    (((∃ s, readStrBody 5 true ⟨[9, 1, 2], 0, 3⟩ = .ok s ⟨[9, 1, 2], 1, 3⟩)
        ∨ readStrBody 5 true ⟨[9, 1, 2], 0, 3⟩ = .thrown ⟨[9, 1, 2], 1, 3⟩)
      ∧ (1 : Nat) ≤ ([9, 1, 2] : List Byte).length) :=
  ⟨Or.inr (by decide),
   (read_cursor_bound ⟨[9, 1, 2], 0, 3⟩ (by decide) (by decide)).2.2.1 5 true ⟨[9, 1, 2], 1, 3⟩
     (Or.inr (by decide))⟩

theorem map_ok_inv {α β : Type} (f : α → β) (o : Outcome α) (v : β) (st : Binary)
    (h : o.map f = .ok v st) : ∃ x, o = .ok x st ∧ f x = v := by
  cases o with
  | ok x st2 =>
    simp only [Outcome.map, Outcome.ok.injEq] at h
    exact ⟨x, by rw [h.2], h.1⟩
  | thrown st2 => simp [Outcome.map] at h
  | terminated => simp [Outcome.map] at h
  | undefined => simp [Outcome.map] at h

theorem readBytes_frame (t : IntTy) (LE : Bool) (b : Binary) (v : Int) (st : Binary)
    (h : readBytes t LE b = .ok v st) :
    st.buffer = b.buffer ∧ st.writeOffset = b.writeOffset := by
  obtain ⟨o, ho, _⟩ := map_ok_inv _ _ _ _ h
  exact readObject_frame _ _ _ _ _ ho

theorem readOp_run_frame (op : ReadOp) (b st : Binary) (h : op.run b = .ok () st) :
    st.buffer = b.buffer ∧ st.writeOffset = b.writeOffset := by
  cases op <;> simp only [ReadOp.run, readBytes] at h <;>
    (obtain ⟨o, ho, _⟩ := map_ok_inv _ _ _ _ h
     first
     | (obtain ⟨o2, ho2, _⟩ := map_ok_inv _ _ _ _ ho
        exact readObject_frame _ _ _ _ _ ho2)
     | exact readObject_frame _ _ _ _ _ ho)

theorem readStrTail_frame (len : Nat) (b st : Binary)
    (h : (∃ s, readStrTail len b = .ok s st) ∨ readStrTail len b = .thrown st) :
    st.buffer = b.buffer ∧ st.writeOffset = b.writeOffset := by
  rcases h with ⟨s, h⟩ | h
  · unfold readStrTail at h
    split at h
    · cases h
    · split at h
      · cases h; exact ⟨rfl, rfl⟩
      · cases h
  · rw [readStrTail_thrown len b st h]
    exact ⟨rfl, rfl⟩

theorem readStrBody_frame (len : Nat) (lb : Bool) (b st : Binary)
    (h : (∃ s, readStrBody len lb b = .ok s st) ∨ readStrBody len lb b = .thrown st) :
    st.buffer = b.buffer ∧ st.writeOffset = b.writeOffset := by
  cases lb
  · simp only [readStrBody, Bool.false_eq_true, if_false] at h
    exact readStrTail_frame len b st h
  · simp only [readStrBody, if_true] at h
    cases hr : readUInt8 b with
    | ok n b1 =>
      rw [hr] at h
      simp only [Outcome.bind] at h
      obtain ⟨h1, h2⟩ := readStrTail_frame len b1 st h
      obtain ⟨h3, h4⟩ := readBytes_frame _ _ _ _ _ hr
      exact ⟨by rw [h1, h3], by rw [h2, h4]⟩
    | thrown st2 =>
      exfalso
      unfold readUInt8 readBytes readObject at hr
      simp only at hr
      split at hr
      · cases hr
      · split at hr <;> cases hr
    | terminated =>
      rw [hr] at h
      simp [Outcome.bind] at h
    | undefined =>
      rw [hr] at h
      simp [Outcome.bind] at h

theorem readStrPrefixed_frame (b : Binary) (s : List Byte) (st : Binary)
    (h : readStrPrefixed b = .ok s st) :
    st.buffer = b.buffer ∧ st.writeOffset = b.writeOffset := by
  have h2 := noexcept_ok _ _ _ h
  cases hr : readUInt8 b with
  | ok n b1 =>
    rw [hr] at h2
    simp only [Outcome.bind] at h2
    have h3 := noexcept_ok _ _ _ h2
    obtain ⟨h4, h5⟩ := readStrBody_frame _ false b1 st (Or.inl ⟨s, h3⟩)
    obtain ⟨h6, h7⟩ := readBytes_frame _ _ _ _ _ hr
    exact ⟨by rw [h4, h6], by rw [h5, h7]⟩
  | thrown st2 => rw [hr] at h2; simp [Outcome.bind] at h2
  | terminated => rw [hr] at h2; simp [Outcome.bind] at h2
  | undefined => rw [hr] at h2; simp [Outcome.bind] at h2

/-! ## Frame facts about the writes -/

theorem writeBytesPtr_frame (data : List Byte) (n : Nat) (b : Binary) (h : n ≤ data.length) :
    (writeBytesPtr data n b).buffer = b.buffer ++ data.take n
    ∧ (writeBytesPtr data n b).readOffset = b.readOffset := by
  induction n with
  | zero => simp [writeBytesPtr]
  | succ n ih =>
    have hn : n < data.length := h
    obtain ⟨ih1, ih2⟩ := ih (Nat.le_of_lt hn)
    unfold writeBytesPtr at ih1 ih2 ⊢
    rw [List.range_succ, List.foldl_append]
    simp only [List.foldl_cons, List.foldl_nil]
    rw [writeBytes_eq]
    simp only [ih1, ih2, if_true, IntTy.size, objectRepr_one, List.getD_eq_getElem _ _ hn,
      toByte_ofByte, List.append_assoc, and_true]
    rw [List.take_succ, List.getElem?_eq_getElem hn]
    rfl

theorem writeBytes_frame (t : IntTy) (v : Int) (LE : Bool) (b : Binary) :
    (∃ added : List Byte, (writeBytes t v LE b).buffer = b.buffer ++ added)
    ∧ (writeBytes t v LE b).readOffset = b.readOffset := by
  rw [writeBytes_eq]
  exact ⟨⟨_, rfl⟩, rfl⟩

theorem writeOp_run_frame (w : WriteOp) (b : Binary) :
    (∃ added : List Byte, (w.run b).buffer = b.buffer ++ added)
    ∧ (w.run b).readOffset = b.readOffset := by
  cases w with
  | int t LE v => exact writeBytes_frame t v LE b
  | bool v =>
    rw [WriteOp.run, writeBool_eq]
    exact ⟨⟨_, rfl⟩, rfl⟩
  | float LE bits =>
    cases LE
    · exact writeBytes_frame .uint bits false b
    · exact writeBytes_frame .uint bits true b
  | double LE bits =>
    cases LE
    · exact writeBytes_frame .ullong bits false b
    · exact writeBytes_frame .ullong bits true b
  | str s => exact ⟨⟨_, (writeStr_buffer s b).1⟩, (writeStr_buffer s b).2⟩
  | rawPtr d =>
    exact ⟨⟨_, (writeBytesPtr_frame d d.length b (Nat.le_refl _)).1⟩,
      (writeBytesPtr_frame d d.length b (Nat.le_refl _)).2⟩
  | rawVec d =>
    exact ⟨⟨_, (writeBytesPtr_frame d d.length b (Nat.le_refl _)).1⟩,
      (writeBytesPtr_frame d d.length b (Nat.le_refl _)).2⟩

/-- C16. Append-only storage: every write member (fixed-width integer, bool,
float/double, `writeStr`, raw `writeBytes`) leaves the previously stored bytes
as a prefix of the new stored sequence and the read cursor unchanged, so the
length does not decrease; every read member (fixed-width reads, `readStr`
in both forms), in the state of a normal return or of an executed `throw`,
leaves the stored sequence and the write cursor unchanged. -/
theorem append_only (b : Binary) :
    (∀ w : WriteOp,
        b.buffer <+: (w.run b).buffer
        ∧ (w.run b).readOffset = b.readOffset
        ∧ b.buffer.length ≤ (w.run b).buffer.length)
    ∧ (∀ (K : Nat) (LE : Bool) (o : List Byte) (st : Binary), readObject K LE b = .ok o st →
        st.buffer = b.buffer ∧ st.writeOffset = b.writeOffset)
    ∧ (∀ (op : ReadOp) (st : Binary), op.run b = .ok () st →
        st.buffer = b.buffer ∧ st.writeOffset = b.writeOffset)
    ∧ (∀ (r : Option Bool) (st : Binary), readBool b = .ok r st →
        st.buffer = b.buffer ∧ st.writeOffset = b.writeOffset)
    ∧ (∀ (len : Nat) (lengthBased : Bool) (st : Binary),
        ((∃ s, readStrBody len lengthBased b = .ok s st)
          ∨ readStrBody len lengthBased b = .thrown st) →
        st.buffer = b.buffer ∧ st.writeOffset = b.writeOffset)
    ∧ (∀ (len : Nat) (lengthBased : Bool) (s : List Byte) (st : Binary),
        readStr len lengthBased b = .ok s st →
        st.buffer = b.buffer ∧ st.writeOffset = b.writeOffset)
    ∧ (∀ (s : List Byte) (st : Binary), readStrPrefixed b = .ok s st →
        st.buffer = b.buffer ∧ st.writeOffset = b.writeOffset) := by
  refine ⟨?_, ?_, ?_, ?_, ?_, ?_, ?_⟩
  · intro w
    obtain ⟨⟨added, h1⟩, h2⟩ := writeOp_run_frame w b
    exact ⟨⟨added, h1.symm⟩, h2, by rw [h1]; simp⟩
  · intro K LE o st h
    exact readObject_frame K LE b o st h
  · intro op st h
    exact readOp_run_frame op b st h
  · intro r st h
    obtain ⟨o, ho, _⟩ := map_ok_inv _ _ _ _ h
    exact readObject_frame _ _ _ _ _ ho
  · intro len lb st h
    exact readStrBody_frame len lb b st h
  · intro len lb s st h
    exact readStrBody_frame len lb b st (Or.inl ⟨s, noexcept_ok _ _ _ h⟩)
  · intro s st h
    exact readStrPrefixed_frame b s st h

/-- Witness of C16: `readStr()` on `02 41 42` returns `41 42` and leaves the
stored bytes and the write cursor as they were. -/
theorem append_only_witness :
    readStrPrefixed ⟨[2, 0x41, 0x42], 0, 3⟩ = .ok [0x41, 0x42] ⟨[2, 0x41, 0x42], 3, 3⟩
    ∧ (⟨[2, 0x41, 0x42], 3, 3⟩ : Binary).buffer = [2, 0x41, 0x42]
    ∧ (⟨[2, 0x41, 0x42], 3, 3⟩ : Binary).writeOffset = 3 :=
  ⟨by decide,
   (append_only ⟨[2, 0x41, 0x42], 0, 3⟩).2.2.2.2.2.2 [0x41, 0x42] ⟨[2, 0x41, 0x42], 3, 3⟩
     (by decide)⟩

/-! ## Reading a value back out of the middle of a buffer -/

theorem slice_mid (pre enc rest : List Byte) :
    ((pre ++ enc ++ rest).drop pre.length).take enc.length = enc := by
  rw [List.append_assoc, List.drop_left, List.take_left]

theorem readBytes_mid (t : IntTy) (LE : Bool) (v : Int) (hv : t.InRange v)
    (pre rest : List Byte) (wo : Nat)
    (hlen : (pre ++ (if LE then objectRepr t.size v else (objectRepr t.size v).reverse)
              ++ rest).length ≤ maxSize) :
    readBytes t LE
        ⟨pre ++ (if LE then objectRepr t.size v else (objectRepr t.size v).reverse) ++ rest,
          pre.length, wo⟩
      = .ok v
        ⟨pre ++ (if LE then objectRepr t.size v else (objectRepr t.size v).reverse) ++ rest,
          pre.length + t.size, wo⟩ := by
  have henc : (if LE then objectRepr t.size v else (objectRepr t.size v).reverse).length
      = t.size := by
    cases LE <;> simp [length_objectRepr]
  have hs := slice_mid pre (if LE then objectRepr t.size v else (objectRepr t.size v).reverse) rest
  rw [henc] at hs
  unfold readBytes
  rw [readObject_ok _ _ _ hlen (by
    simp only [List.length_append, henc]; omega)]
  simp only [Outcome.map, hs]
  congr 1
  cases LE <;> simp [ofObject_objectRepr t v hv]

theorem readBool_mid (v : Bool) (pre rest : List Byte) (wo : Nat)
    (hlen : (pre ++ [if v then (1 : Byte) else 0] ++ rest).length ≤ maxSize) :
    readBool ⟨pre ++ [if v then (1 : Byte) else 0] ++ rest, pre.length, wo⟩
      = .ok (some v) ⟨pre ++ [if v then (1 : Byte) else 0] ++ rest, pre.length + 1, wo⟩ := by
  have hs := slice_mid pre [if v then (1 : Byte) else 0] rest
  simp only [List.length_cons, List.length_nil, Nat.zero_add] at hs
  have hb : pre.length + 1 ≤ (pre ++ [if v then (1 : Byte) else 0] ++ rest).length := by
    simp only [List.length_append, List.length_cons, List.length_nil]
    omega
  unfold readBool
  rw [readObject_ok _ _ _ hlen hb]
  simp only [Outcome.map, hs, if_true]
  congr 1
  cases v <;> decide

theorem readStrPrefixed_mid (s : List Byte) (hs : s.length ≤ 255) (pre rest : List Byte)
    (wo : Nat) (hlen : (pre ++ (toByte (s.length : Int) :: s) ++ rest).length ≤ maxSize) :
    readStrPrefixed ⟨pre ++ (toByte (s.length : Int) :: s) ++ rest, pre.length, wo⟩
      = .ok s ⟨pre ++ (toByte (s.length : Int) :: s) ++ rest, pre.length + (s.length + 1), wo⟩ := by
  have hl : (pre ++ (toByte (s.length : Int) :: s) ++ rest).length
      = pre.length + (s.length + 1) + rest.length := by
    simp only [List.length_append, List.length_cons]
  have hget : (pre ++ (toByte (s.length : Int) :: s) ++ rest).getD pre.length 0
      = toByte (s.length : Int) := by
    rw [List.append_assoc, List.getD_eq_getElem?_getD, List.getElem?_append_right (Nat.le_refl _)]
    simp
  have hbyte : ((toByte (s.length : Int)).val : Int) = (s.length : Int) := by
    rw [toByte_val]; omega
  have hdrop : ((pre ++ (toByte (s.length : Int) :: s) ++ rest).drop (pre.length + 1)).take s.length
      = s := by
    have h1 : pre ++ (toByte (s.length : Int) :: s) ++ rest
        = (pre ++ [toByte (s.length : Int)]) ++ s ++ rest := by simp
    have h2 := slice_mid (pre ++ [toByte (s.length : Int)]) s rest
    rw [← h1, List.length_append] at h2
    exact h2
  unfold readStrPrefixed
  rw [readUInt8_ok _ hlen (by rw [hl]; simp only; omega)]
  simp only [Outcome.bind, hget, hbyte, Int.toNat_ofNat, readStr, readStrBody,
    Bool.false_eq_true, if_false, readStrTail]
  have hw : (pre.length + 1 + s.length) % wrap64 = pre.length + 1 + s.length := by
    apply Nat.mod_eq_of_lt
    rw [hl] at hlen
    simp only [maxSize, wrap64] at *
    omega
  rw [hw, hl, if_neg (by omega), if_pos (by omega), hdrop]
  simp only [Outcome.noexcept, Outcome.ok.injEq, Binary.mk.injEq, true_and, and_true]
  omega

theorem value_codec (v : Value) (hv : v.Representable) :
    ∃ enc : List Byte,
      (∀ b : Binary, (v.write b).buffer = b.buffer ++ enc
        ∧ (v.write b).readOffset = b.readOffset)
      ∧ (∀ (pre rest : List Byte) (wo : Nat), (pre ++ enc ++ rest).length ≤ maxSize →
          v.read ⟨pre ++ enc ++ rest, pre.length, wo⟩
            = .ok (some v) ⟨pre ++ enc ++ rest, pre.length + enc.length, wo⟩) := by
  cases v with
  | int t LE x =>
    refine ⟨if LE then objectRepr t.size x else (objectRepr t.size x).reverse, ?_, ?_⟩
    · intro b
      simp only [Value.write, writeBytes_eq, and_self]
    · intro pre rest wo hlen
      have henc : (if LE then objectRepr t.size x else (objectRepr t.size x).reverse).length
          = t.size := by
        cases LE <;> simp [length_objectRepr]
      simp only [Value.read]
      rw [readBytes_mid t LE x hv pre rest wo hlen, henc]
      rfl
  | bool x =>
    refine ⟨[if x then (1 : Byte) else 0], ?_, ?_⟩
    · intro b
      simp only [Value.write, writeBool_eq, and_self]
    · intro pre rest wo hlen
      simp only [Value.read]
      rw [readBool_mid x pre rest wo hlen]
      rfl
  | str x =>
    refine ⟨toByte (x.length : Int) :: x, ?_, ?_⟩
    · intro b
      exact writeStr_buffer x b
    · intro pre rest wo hlen
      simp only [Value.read]
      rw [readStrPrefixed_mid x hv pre rest wo hlen]
      simp [Outcome.map]

theorem record_codec (vals : List Value) (h : ∀ v ∈ vals, v.Representable) :
    ∃ encs : List Byte,
      (∀ b : Binary, (writeAll vals b).buffer = b.buffer ++ encs
        ∧ (writeAll vals b).readOffset = b.readOffset)
      ∧ (∀ (pre rest : List Byte) (wo : Nat), (pre ++ encs ++ rest).length ≤ maxSize →
          readAll vals ⟨pre ++ encs ++ rest, pre.length, wo⟩
            = .ok (vals.map some) ⟨pre ++ encs ++ rest, pre.length + encs.length, wo⟩) := by
  induction vals with
  | nil =>
    refine ⟨[], ?_, ?_⟩
    · intro b; simp [writeAll]
    · intro pre rest wo _; simp [readAll]
  | cons v vs ih =>
    obtain ⟨enc, hw, hr⟩ := value_codec v (h v (List.mem_cons_self _ _))
    obtain ⟨encs, hws, hrs⟩ := ih (fun x hx => h x (List.mem_cons_of_mem _ hx))
    refine ⟨enc ++ encs, ?_, ?_⟩
    · intro b
      have h1 := hws (v.write b)
      have h2 := hw b
      simp only [writeAll, List.foldl_cons] at h1 ⊢
      rw [h1.1, h1.2, h2.1, h2.2]
      simp
    · intro pre rest wo hlen
      have e1 : pre ++ (enc ++ encs) ++ rest = pre ++ enc ++ (encs ++ rest) := by simp
      have e2 : pre ++ (enc ++ encs) ++ rest = (pre ++ enc) ++ encs ++ rest := by simp
      have h1 := hr pre (encs ++ rest) wo (by rw [← e1]; exact hlen)
      have h2 := hrs (pre ++ enc) rest wo (by rw [← e2]; exact hlen)
      rw [← e1] at h1
      rw [← e2, List.length_append] at h2
      simp only [readAll, h1, Outcome.bind, h2, Outcome.map, List.map_cons, List.length_append,
        Nat.add_assoc]

/-- C17. Record round trip from any consumed position: for every state whose
read cursor equals the number of stored bytes and every finite list of typed
values (an integer within the range of its type with a byte order, a bool, a
string of at most 255 bytes), writing the values in order and reading them
back in the same order with the matching read members returns the same list of
values and leaves the read cursor equal to the new number of stored bytes
(the vector staying within its largest size). -/
theorem record_roundtrip (vals : List Value) (b : Binary)
    (hro : b.readOffset = b.buffer.length)
    (hrep : ∀ v ∈ vals, v.Representable)
    (hlen : (writeAll vals b).buffer.length ≤ maxSize) :
    ∃ st : Binary,
      readAll vals (writeAll vals b) = .ok (vals.map some) st
      ∧ st.readOffset = st.buffer.length
      ∧ st.buffer = (writeAll vals b).buffer := by
  obtain ⟨encs, hw, hr⟩ := record_codec vals hrep
  have hb := (hw b).1
  have hr2 := (hw b).2
  have hst : writeAll vals b
      = ⟨b.buffer ++ encs ++ [], b.buffer.length, (writeAll vals b).writeOffset⟩ := by
    cases hx : writeAll vals b with
    | mk buf ro wo =>
      rw [hx] at hb hr2
      simp only at hb hr2
      simp [hb, hr2, hro]
  have h1 := hr b.buffer [] (writeAll vals b).writeOffset (by
    rw [hb] at hlen; simpa using hlen)
  rw [← hst] at h1
  refine ⟨_, h1, ?_, ?_⟩
  · simp
  · simp [hb]

/-- Witness of C17: a big-endian `short`, a bool and a string after one
consumed byte. -/
theorem record_roundtrip_witness :
    ∃ st : Binary,
      readAll [.int .short false (-2), .bool true, .str [1, 2]]
          (writeAll [.int .short false (-2), .bool true, .str [1, 2]] ⟨[7], 1, 0⟩)
        = .ok [some (.int .short false (-2)), some (.bool true), some (.str [1, 2])] st
      ∧ st.readOffset = st.buffer.length
      ∧ st.buffer = [7, 0xff, 0xfe, 1, 2, 1, 2] :=
  record_roundtrip [.int .short false (-2), .bool true, .str [1, 2]] ⟨[7], 1, 0⟩
    (by decide) (by decide) (by decide)

/-- C18 fails on the code. After `setReadOffset(2^64 - 1)` on a `Binary` holding
the one byte `41`, `readUInt8()` computes `readOffset + 1` as 0, so the guard
`0 > 1` is not taken, and the read accesses `buffer[2^64 - 1]`, which is not
below the size 1: the behaviour is undefined.  The same holds at width 2 on
two stored bytes. -/
theorem guard_wraps_at_large_offset :
    setReadOffset (2 ^ 64 - 1) (ofBuffer [0x41]) = ⟨[0x41], 2 ^ 64 - 1, 0⟩
    ∧ (⟨[0x41], 2 ^ 64 - 1, 0⟩ : Binary).Valid
    ∧ ¬ ((2 ^ 64 - 1 + 1) % wrap64 > ([0x41] : List Byte).length)
    ∧ ¬ (2 ^ 64 - 1 < ([0x41] : List Byte).length)
    ∧ readObject 1 true ⟨[0x41], 2 ^ 64 - 1, 0⟩ = .undefined
    ∧ readUInt8 (setReadOffset (2 ^ 64 - 1) (ofBuffer [0x41])) = .undefined
    ∧ readUInt16_LE (setReadOffset (2 ^ 64 - 1) (ofBuffer [0x41, 0x42])) = .undefined := by
  decide

theorem writeBytes_of_read (t : IntTy) (LE : Bool) (b : Binary) (v : Int) (st : Binary)
    (hlen : b.buffer.length ≤ maxSize) (h : b.readOffset + t.size ≤ b.buffer.length)
    (hr : readBytes t LE b = .ok v st) :
    (writeBytes t v LE empty).buffer = (b.buffer.drop b.readOffset).take t.size := by
  have hsl : ((b.buffer.drop b.readOffset).take t.size).length = t.size := by
    simp; omega
  unfold readBytes at hr
  rw [readObject_ok _ _ _ hlen h] at hr
  simp only [Outcome.map, Outcome.ok.injEq] at hr
  rw [writeBytes_eq, ← hr.1]
  cases LE
  · simp only [Bool.false_eq_true, if_false, empty, List.nil_append]
    rw [objectRepr_ofObject t _ (by simp; omega), List.reverse_reverse]
  · simp only [if_true, empty, List.nil_append]
    rw [objectRepr_ofObject t _ hsl]

/-- C19. Decode-then-encode reproduces the bytes: for every integer type of
width `w`, either byte order and every state with at least `w` bytes remaining
after the read cursor, the read returns normally a value `v`, and writing `v`
to an empty buffer with the same type and byte order stores exactly the `w`
bytes that were read; so any other block of `w` bytes that reads as `v` is the
same block. -/
theorem decode_encode (t : IntTy) (LE : Bool) (b : Binary)
    (hlen : b.buffer.length ≤ maxSize) (h : b.readOffset + t.size ≤ b.buffer.length) :
    ∃ v : Int,
      readBytes t LE b = .ok v { b with readOffset := b.readOffset + t.size }
      ∧ (writeBytes t v LE empty).buffer = (b.buffer.drop b.readOffset).take t.size
      ∧ ∀ b2 : Binary, b2.buffer.length ≤ maxSize →
          b2.readOffset + t.size ≤ b2.buffer.length →
          readBytes t LE b2 = .ok v { b2 with readOffset := b2.readOffset + t.size } →
          (b2.buffer.drop b2.readOffset).take t.size
            = (b.buffer.drop b.readOffset).take t.size := by
  have hr : readBytes t LE b
      = .ok (t.ofObject (if LE then (b.buffer.drop b.readOffset).take t.size
                         else ((b.buffer.drop b.readOffset).take t.size).reverse))
          { b with readOffset := b.readOffset + t.size } := by
    unfold readBytes
    rw [readObject_ok _ _ _ hlen h]
    rfl
  refine ⟨_, hr, writeBytes_of_read t LE b _ _ hlen h hr, ?_⟩
  intro b2 hlen2 h2 hr2
  rw [← writeBytes_of_read t LE b2 _ _ hlen2 h2 hr2, writeBytes_of_read t LE b _ _ hlen h hr]

/-- Witness of C19: `readInt16_BE()` at offset 1 of `07 ff fe`. -/
theorem decode_encode_witness :
    ∃ v : Int,
      readBytes .short false ⟨[7, 0xff, 0xfe], 1, 0⟩
        = .ok v ⟨[7, 0xff, 0xfe], 1 + IntTy.short.size, 0⟩
      ∧ (writeBytes .short v false empty).buffer
          = (([7, 0xff, 0xfe] : List Byte).drop 1).take IntTy.short.size
      ∧ ∀ b2 : Binary, b2.buffer.length ≤ maxSize →
          b2.readOffset + IntTy.short.size ≤ b2.buffer.length →
          readBytes .short false b2
            = .ok v { b2 with readOffset := b2.readOffset + IntTy.short.size } →
          (b2.buffer.drop b2.readOffset).take IntTy.short.size
            = (([7, 0xff, 0xfe] : List Byte).drop 1).take IntTy.short.size :=
  decode_encode .short false ⟨[7, 0xff, 0xfe], 1, 0⟩ (by decide) (by decide)

theorem readUInt8_at_end (b : Binary) (hlen : b.buffer.length ≤ maxSize)
    (h : b.readOffset = b.buffer.length) : readUInt8 b = .ok 0 b := by
  have hw : (b.readOffset + 1) % wrap64 = b.readOffset + 1 := by
    apply Nat.mod_eq_of_lt
    simp only [maxSize, wrap64] at *
    omega
  unfold readUInt8 readBytes readObject
  simp only [show IntTy.uchar.size = 1 from rfl, hw]
  rw [if_pos (by omega)]
  simp only [Outcome.map, ofObject_replicate_zero]

theorem readStrTail_zero (b : Binary) (hlen : b.buffer.length ≤ maxSize)
    (hro : b.readOffset ≤ b.buffer.length) :
    readStrTail 0 b = .ok [] b := by
  have hw : (b.readOffset + 0) % wrap64 = b.readOffset := by
    apply Nat.mod_eq_of_lt
    simp only [maxSize, wrap64] at *
    omega
  unfold readStrTail
  rw [hw, if_neg (by omega), if_pos (by omega)]
  simp

theorem readStrTail_terminated (len : Nat) (b : Binary)
    (h : (readStrTail len b).noexcept = .terminated) :
    readStrTail len b = .thrown b
      ∧ (b.readOffset + len) % wrap64 > b.buffer.length := by
  unfold readStrTail at h ⊢
  split at h
  · rename_i hg
    rw [if_pos hg]
    exact ⟨rfl, hg⟩
  · split at h <;> simp [Outcome.noexcept] at h

/-- C20. State after a failed string read: for every state with
`readOffset <= buffer.size()`, when `readStr(len, false)` fails (its `throw` is
executed, which is when the call ends in `std::terminate`), the stored bytes
and both cursors are exactly as before the call; and when the length-prefixed
`readStr()` fails, the prefix byte has been read and announces more bytes than
remain, the stored bytes are unchanged and the read cursor has advanced by
exactly one byte. -/
theorem failed_string_read (b : Binary) (hlen : b.buffer.length ≤ maxSize)
    (hro : b.readOffset ≤ b.buffer.length) :
    (∀ (len : Nat) (st : Binary), readStrBody len false b = .thrown st → st = b)
    ∧ (∀ len : Nat, readStr len false b = .terminated → readStrBody len false b = .thrown b)
    ∧ (∀ (n : Int) (b1 st : Binary), readUInt8 b = .ok n b1 →
        readStrBody n.toNat false b1 = .thrown st →
        st.buffer = b.buffer ∧ st.readOffset = b.readOffset + 1
          ∧ st.writeOffset = b.writeOffset)
    ∧ (readStrPrefixed b = .terminated →
        ∃ n : Int,
          readUInt8 b = .ok n { b with readOffset := b.readOffset + 1 }
          ∧ readStrBody n.toNat false { b with readOffset := b.readOffset + 1 }
              = .thrown { b with readOffset := b.readOffset + 1 }
          ∧ n.toNat > b.buffer.length - (b.readOffset + 1)) := by
  refine ⟨?_, ?_, ?_, ?_⟩
  · intro len st h
    simp only [readStrBody, Bool.false_eq_true, if_false] at h
    exact readStrTail_thrown len b st h
  · intro len h
    simp only [readStr, readStrBody, Bool.false_eq_true, if_false] at h ⊢
    exact (readStrTail_terminated len b h).1
  · intro n b1 st h1 h2
    simp only [readStrBody, Bool.false_eq_true, if_false] at h2
    rcases Nat.lt_or_ge b.readOffset b.buffer.length with hlt | hge
    · rw [readUInt8_ok b hlen hlt] at h1
      simp only [Outcome.ok.injEq] at h1
      rw [readStrTail_thrown _ b1 st h2, ← h1.2]
      exact ⟨rfl, rfl, rfl⟩
    · exfalso
      rw [readUInt8_at_end b hlen (by omega)] at h1
      simp only [Outcome.ok.injEq] at h1
      rw [← h1.1, ← h1.2] at h2
      rw [show (0 : Int).toNat = 0 from rfl, readStrTail_zero b hlen hro] at h2
      cases h2
  · intro h
    rcases Nat.lt_or_ge b.readOffset b.buffer.length with hlt | hge
    · have hbyte := (b.buffer.getD b.readOffset 0).isLt
      refine ⟨((b.buffer.getD b.readOffset 0).val : Int), readUInt8_ok b hlen hlt, ?_⟩
      simp only [readStrPrefixed, readUInt8_ok b hlen hlt, Outcome.bind, readStr, readStrBody,
        Bool.false_eq_true, if_false] at h ⊢
      have h2 : ∀ r : Outcome (List Byte),
          r.noexcept.noexcept = .terminated → r.noexcept = .terminated := by
        intro r hr
        cases r <;> simp [Outcome.noexcept] at hr ⊢
      obtain ⟨h3, h4⟩ := readStrTail_terminated _ _ (h2 _ h)
      refine ⟨h3, ?_⟩
      simp only [Int.toNat_ofNat] at h4 ⊢
      have hw : (b.readOffset + 1 + (b.buffer.getD b.readOffset 0).val) % wrap64
          = b.readOffset + 1 + (b.buffer.getD b.readOffset 0).val := by
        apply Nat.mod_eq_of_lt
        simp only [maxSize, wrap64] at *
        omega
      rw [hw] at h4
      omega
    · exfalso
      simp only [readStrPrefixed, readUInt8_at_end b hlen (by omega), Outcome.bind, readStr,
        readStrBody, Bool.false_eq_true, if_false, show (0 : Int).toNat = 0 from rfl,
        readStrTail_zero b hlen hro, Outcome.noexcept] at h
      cases h

/-- Witness of C20: `readStr()` on `09 01 02`: the prefix 9 is consumed and the
`throw` is executed with the cursor at 1. -/
theorem failed_string_read_witness :
    readStrPrefixed ⟨[9, 1, 2], 0, 3⟩ = .terminated
    ∧ ∃ n : Int,
        readUInt8 ⟨[9, 1, 2], 0, 3⟩ = .ok n ⟨[9, 1, 2], 0 + 1, 3⟩
        ∧ readStrBody n.toNat false ⟨[9, 1, 2], 0 + 1, 3⟩ = .thrown ⟨[9, 1, 2], 0 + 1, 3⟩
        ∧ n.toNat > ([9, 1, 2] : List Byte).length - (0 + 1) :=
  ⟨by decide,
   (failed_string_read ⟨[9, 1, 2], 0, 3⟩ (by decide) (by decide)).2.2.2 (by decide)⟩

end Binary
